import Mathlib

/-!
Verification development for the PRD-to-specification extraction pipeline
(`agents/spec_agent.py`, `agents/requirements_agent.py`, `agents/rules_agent.py`,
`agents/spec_enricher.py`).

The Python sources are shallowly embedded: strings are `List Char` at the core
(wrapped as `String` at the boundaries), Python dicts are association lists in
insertion order, JSON-ish dynamic values are the inductive `JVal`, and fallible
steps return `Except Unit`.  Python regular-expression scans are embedded as
explicit, executable scanners that reproduce the leftmost-match/backtracking
behaviour of the concrete patterns used by the code.

Approximations (stated once, used consistently):
* Python whitespace (`str.strip`, `\s`) is modelled by the ASCII whitespace set
  `' '  '\t'  '\n'  '\r'  '\x0b'  '\x0c'`; Unicode whitespace is not modelled.
* `str.lower` and `(?i)` case folding are modelled by ASCII case folding.
* `dict(v)` over a non-mapping is modelled as failure; CPython additionally
  accepts iterables of pairs, which no theorem below relies on.
-/

namespace ProjectGen

/-- ASCII whitespace, standing in for Python's `str.strip` / regex `\s` set. -/
def pySpace (c : Char) : Bool :=
  c = ' ' || c = '\t' || c = '\n' || c = '\r' || c = '\x0b' || c = '\x0c'

/-- Left strip over characters (Python `str.lstrip`). -/
def stripLeftChars (l : List Char) : List Char :=
  l.dropWhile pySpace

/-- Right strip over characters (Python `str.rstrip`). -/
def stripRightChars (l : List Char) : List Char :=
  (l.reverse.dropWhile pySpace).reverse

/-- Both-sided strip over characters (Python `str.strip`). -/
def stripChars (l : List Char) : List Char :=
  stripRightChars (stripLeftChars l)

/-- Python `str.strip` on strings. -/
def pyStrip (s : String) : String :=
  String.mk (stripChars s.data)

/-- ASCII lower-casing of one character (model of Python `str.lower`). -/
def lowerCh (c : Char) : Char := c.toLower

/-- ASCII lower-casing of a character list. -/
def lowerL (l : List Char) : List Char := l.map lowerCh

/-- ASCII lower-casing of a string. -/
def pyLower (s : String) : String := String.mk (lowerL s.data)

/-- Regex `\w` (ASCII approximation): letters, digits, underscore. -/
def wordChar (c : Char) : Bool := c.isAlpha || c.isDigit || c = '_'

/-- Characters Python `str.splitlines` breaks at (the line-feed family;
`\r\n` is treated as a single break by `splitLinesAux`). -/
def lineBreakChar (c : Char) : Bool :=
  c = '\n' || c = '\r' || c = '\x0b' || c = '\x0c' ||
  c = '\x1c' || c = '\x1d' || c = '\x1e' || c.toNat = 0x85 ||
  c.toNat = 0x2028 || c.toNat = 0x2029

/-- Worker for `pySplitlines`: `acc` is the (reversed) current line. -/
def splitLinesAux : List Char → List Char → List (List Char)
  | [], [] => []
  | [], acc => [acc.reverse]
  | '\r' :: '\n' :: rest, acc => acc.reverse :: splitLinesAux rest []
  | c :: rest, acc =>
      if lineBreakChar c then acc.reverse :: splitLinesAux rest []
      else splitLinesAux rest (c :: acc)

/-- Python `str.splitlines` (no trailing empty line for a trailing break). -/
def pySplitlines (s : String) : List (List Char) :=
  splitLinesAux s.data []

/-! ### The text sanitizer (`_sanitize_text` of `spec_agent.py` / `spec_enricher.py`) -/

/-- The `SMART_QUOTES` replacement table, as a character map (every entry of
the table is a single-character replacement, so the successive `str.replace`
calls amount to a character map). -/
def smartQuote (c : Char) : Char :=
  if c = '‘' || c = '’' || c = '‚' || c = '‛' then '\''
  else if c = '“' || c = '”' || c = '„' || c = '‟' then '"'
  else c

/-- The `_ZERO_WIDTH` character class: U+200B..U+200F, U+2028, U+2029,
U+2060, U+FEFF. -/
def isZeroWidth (c : Char) : Bool :=
  (0x200B ≤ c.toNat && c.toNat ≤ 0x200F) ||
  c.toNat = 0x2028 || c.toNat = 0x2029 || c.toNat = 0x2060 || c.toNat = 0xFEFF

/-- The `_CTRL_CHARS` character class `[\x00-\x08\x0B\x0C\x0E-\x1F]`
(tab, LF and CR are deliberately excluded by the source pattern). -/
def isCtrl (c : Char) : Bool :=
  c.toNat ≤ 0x08 || c.toNat = 0x0B || c.toNat = 0x0C ||
  (0x0E ≤ c.toNat && c.toNat ≤ 0x1F)

/-- `s.replace("\t", "  ")` as a character-level expansion. -/
def tabExpand (c : Char) : List Char :=
  if c = '\t' then [' ', ' '] else [c]

/-- The sanitizing pipeline on characters: smart quotes, zero-width removal,
control-character removal, tab expansion, strip — in source order. -/
def sanitizeChars (l : List Char) : List Char :=
  stripChars ((((l.map smartQuote).filter (fun c => !isZeroWidth c)).filter
      (fun c => !isCtrl c)).flatMap tabExpand)

/-- `_sanitize_text`: the empty string is returned unchanged (`if not s`),
otherwise the replacement pipeline runs and the result is stripped. -/
def sanitize_text (s : String) : String :=
  if s = "" then s else String.mk (sanitizeChars s.data)

/-! ### Decimal formatting (`f"R-{n:04d}"` and `f"BR-{n:04d}"`) -/

/-- The decimal digit characters. -/
def digitChar (d : Nat) : Char :=
  match d with
  | 0 => '0' | 1 => '1' | 2 => '2' | 3 => '3' | 4 => '4'
  | 5 => '5' | 6 => '6' | 7 => '7' | 8 => '8' | _ => '9'

/-- Worker for `natDigits`; structural recursion on a fuel bound so that
the definition computes by `rfl`.  The fuel `n + 1` always suffices
(`n < 10 ^ (n + 1)`). -/
def natDigitsGo : Nat → Nat → List Char
  | 0, _ => []
  | fuel + 1, n =>
      if n < 10 then [digitChar n]
      else natDigitsGo fuel (n / 10) ++ [digitChar (n % 10)]

/-- Decimal representation of a natural number (model of `%d`). -/
def natDigits (n : Nat) : List Char := natDigitsGo (n + 1) n

/-- Zero padding to (at least) width 4, as `{n:04d}` does. -/
def pad4 (ds : List Char) : List Char :=
  List.replicate (4 - ds.length) '0' ++ ds

/-- `_mk_id` of `requirements_agent.py`: `f"R-{n:04d}"`. -/
def mk_id (n : Nat) : String :=
  String.mk ('R' :: '-' :: pad4 (natDigits n))

/-- `_mk_id` of `rules_agent.py`: `f"BR-{n:04d}"`. -/
def mk_brid (n : Nat) : String :=
  String.mk ('B' :: 'R' :: '-' :: pad4 (natDigits n))

/-- Exactly four decimal digits, optionally followed by a final newline
(Python's `$` also matches just before a trailing `"\n"`). -/
def fourDigitsNL : List Char → Bool
  | [a, b, c, d] => a.isDigit && b.isDigit && c.isDigit && d.isDigit
  | [a, b, c, d, e] => a.isDigit && b.isDigit && c.isDigit && d.isDigit && e = '\n'
  | _ => false

/-- `re.match(r"^R-\d\x7b4\x7d$", s)` as a boolean test. -/
def matchesRId (s : String) : Bool :=
  match s.data with
  | 'R' :: '-' :: rest => fourDigitsNL rest
  | _ => false

/-! ### Dynamic values and Python dicts -/

/-- Untyped parse-tree values (JSON/YAML-shaped data); numbers are modelled
as integers, which is enough for every claim below. -/
inductive JVal where
  | null
  | bool (b : Bool)
  | num (n : Int)
  | str (s : String)
  | arr (elems : List JVal)
  | obj (entries : List (String × JVal))

/-- A Python dict with string keys, in insertion order. -/
abbrev JObj := List (String × JVal)

/-- `d.get(k)` / `k in d`: first entry with the given key. -/
def pyGet (o : JObj) (k : String) : Option JVal :=
  (o.find? (fun e => e.1 == k)).map (fun e => e.2)

/-- `d[k] = v`: replace the first entry with that key, else append. -/
def pySet (o : JObj) (k : String) (v : JVal) : JObj :=
  match o with
  | [] => [(k, v)]
  | (k', v') :: rest =>
      if k' = k then (k, v) :: rest else (k', v') :: pySet rest k v

/-- `d.setdefault(k, v)`: insert only when the key is absent. -/
def pySetdefault (o : JObj) (k : String) (v : JVal) : JObj :=
  if (pyGet o k).isSome then o else o ++ [(k, v)]

/-- Python truthiness (`bool(v)` is `False`). -/
def falsy : JVal → Bool
  | .null => true
  | .bool b => !b
  | .num n => n == 0
  | .str s => s == ""
  | .arr l => l.isEmpty
  | .obj m => m.isEmpty

/-- `dict(v)` for a mapping; anything else raises (see the file header note
about iterables of pairs). -/
def dictConv : JVal → Except Unit JObj
  | .obj m => .ok m
  | _ => .error ()

/-- `dict(v or \x7b\x7d)`. -/
def dictOr (v : JVal) : Except Unit JObj :=
  if falsy v then .ok [] else dictConv v

/-! ### `_name_from_prd` and `_coerce_to_schema` (`spec_agent.py`) -/

/-- Character class `[A-Za-z0-9_\- ]` of the name-label pattern. -/
def nameClass (c : Char) : Bool :=
  c.isAlpha || c.isDigit || c = '_' || c = '-' || c = ' '

/-- Case-insensitive literal prefix test (`pat` must be given lower-case). -/
def lowerStarts (cs : List Char) (pat : List Char) : Bool :=
  lowerL (cs.take pat.length) == pat

/-- Length of the keyword `name|project|product` matched at the head
(case-insensitively); the three alternatives are mutually exclusive. -/
def nameKeyAt (cs : List Char) : Option Nat :=
  if lowerStarts cs "name".data then some 4
  else if lowerStarts cs "project".data then some 7
  else if lowerStarts cs "product".data then some 7
  else none

/-- The `\s*([A-Za-z0-9_\- ]+)` tail of the name pattern, with the greedy
`\s*` giving characters back to the capture when needed: the capture is the
maximal class run after the whitespace, and when that run is empty the
backtracked capture is a single space provided the whitespace run contains
one (only `' '` of the whitespace set belongs to the class). -/
def nameCapture (cs : List Char) : Option (List Char) :=
  let w := cs.takeWhile pySpace
  let rest := cs.dropWhile pySpace
  let g := rest.takeWhile nameClass
  if g ≠ [] then some g
  else if w.contains ' ' then some [' '] else none

/-- One attempt of the name-label pattern at the current position. -/
def tryNameAt (cs : List Char) : Option (List Char) :=
  match nameKeyAt cs with
  | none => none
  | some k =>
      match cs.drop k with
      | [] => none
      | sep :: rest =>
          if sep = ':' || sep = '-' then nameCapture rest else none

/-- Leftmost match of the name-label pattern (`re.findall`'s first group). -/
def scanName : List Char → Option (List Char)
  | [] => none
  | c :: cs =>
      match tryNameAt (c :: cs) with
      | some g => some g
      | none => scanName cs

/-- Worker for `subWsHyphen` (structural on a fuel bound, so that it
computes by `rfl`; the input length always suffices). -/
def subWsHyphenGo : Nat → List Char → List Char
  | 0, _ => []
  | _, [] => []
  | fuel + 1, c :: rest =>
      if pySpace c then '-' :: subWsHyphenGo fuel (rest.dropWhile pySpace)
      else c :: subWsHyphenGo fuel rest

/-- `re.sub(r"\s+", "-", ...)`: each maximal whitespace run becomes `'-'`. -/
def subWsHyphen (l : List Char) : List Char := subWsHyphenGo l.length l

/-- `_name_from_prd`: first labelled name in the PRD (default `"my-app"`),
stripped, lower-cased, whitespace runs collapsed to hyphens. -/
def name_from_prd (prd : String) : String :=
  let n0 := match scanName prd.data with
    | some g => g
    | none => "my-app".data
  String.mk (subWsHyphen (lowerL (stripChars n0)))

/-- The `meta.name` guard of `_coerce_to_schema`: absent, non-string, or
blank after stripping. -/
def metaNameMissing (meta : JObj) : Bool :=
  match pyGet meta "name" with
  | some (.str s) => pyStrip s == ""
  | some _ => true
  | none => true

/-- `data.setdefault(k, data.get(k) or dflt)`: when the key is present the
dict is unchanged (even for a falsy value); when absent, `dflt` is inserted. -/
def sdOr (o : JObj) (k : String) (dflt : JVal) : JObj :=
  if (pyGet o k).isSome then o else o ++ [(k, dflt)]

/-- `_coerce_to_schema`, in source order.  The only fallible steps are the
`dict(...)` conversions. -/
def coerce (x : JVal) (prd : String) : Except Unit JObj := do
  let data ← dictOr x
  let meta ← dictOr ((pyGet data "meta").getD .null)
  let meta := if metaNameMissing meta then
      pySet meta "name" (.str (name_from_prd prd)) else meta
  let meta := pySetdefault meta "domain" (.str "App")
  let meta := pySetdefault meta "version" (.str "0.1.0")
  let data := pySet data "meta" (.obj meta)
  let stks ← dictOr ((pyGet data "stacks").getD .null)
  let be ← dictOr ((pyGet stks "backend").getD .null)
  let fe ← dictOr ((pyGet stks "frontend").getD .null)
  let db ← dictOr ((pyGet stks "database").getD .null)
  let infra ← dictOr ((pyGet stks "infra").getD .null)
  let be := pySetdefault be "framework" (.str "unspecified")
  let be := pySetdefault be "lang" (.str "unspecified")
  let be := pySetdefault be "orm" (.str "unspecified")
  let be := pySetdefault be "runtime" (.str "unspecified")
  let fe := pySetdefault fe "framework" (.str "unspecified")
  let fe := pySetdefault fe "lang" (.str "unspecified")
  let fe := pySetdefault fe "ui" (.str "unspecified")
  let db := pySetdefault db "type" (.str "unspecified")
  let db := pySetdefault db "version" (.str "unspecified")
  let infra := pySetdefault infra "orchestrator" (.str "unspecified")
  let infra := pySetdefault infra "cloud" (.str "unspecified")
  let stks := pySet stks "backend" (.obj be)
  let stks := pySet stks "frontend" (.obj fe)
  let stks := pySet stks "database" (.obj db)
  let stks := pySet stks "infra" (.obj infra)
  let data := pySet data "stacks" (.obj stks)
  let data := sdOr data "entities" (.arr [])
  let data := sdOr data "workflows" (.arr [])
  let data := sdOr data "requirements" (.arr [])
  let data := sdOr data "integrations" (.obj [])
  let data := sdOr data "non_functional" (.obj [])
  let data := sdOr data "ci_cd" (.obj [])
  let data := sdOr data "constraints" (.obj [])
  return data

/-- Modelled from the spec: the JSON Schema file `specs/SPEC_SCHEMA.json` is
referenced by `spec_agent.py` but is not among the sources.  Per spec §6 the
schema requires top-level keys `meta, stacks, entities, workflows,
requirements, integrations, non_functional, ci_cd, constraints`, and `stacks`
requires `backend` and `frontend` sub-objects.  Validation is modelled as
exactly those requirements. -/
def validateSpecSchema (o : JObj) : Bool :=
  (pyGet o "meta").isSome &&
  (pyGet o "stacks").isSome &&
  (pyGet o "entities").isSome &&
  (pyGet o "workflows").isSome &&
  (pyGet o "requirements").isSome &&
  (pyGet o "integrations").isSome &&
  (pyGet o "non_functional").isSome &&
  (pyGet o "ci_cd").isSome &&
  (pyGet o "constraints").isSome &&
  (match pyGet o "stacks" with
   | some (.obj st) => (pyGet st "backend").isSome && (pyGet st "frontend").isSome
   | _ => false)

/-- `coerce` followed by schema validation, as one boolean test. -/
def coerceAndValidate (x : JVal) (prd : String) : Bool :=
  match coerce x prd with
  | .ok o => validateSpecSchema o
  | .error _ => false

/-- Shape hypothesis for the corrected schema-closure claim: a value that
`dict(v or \x7b\x7d)` accepts. -/
def dictish (v : JVal) : Bool :=
  falsy v || (match v with | .obj _ => true | _ => false)

/-- Shape condition on the `stacks` value: absent or falsy, or a mapping
whose four stack entries are each absent, falsy, or a mapping. -/
def stacksShaped (v : JVal) : Bool :=
  match v with
  | .obj st =>
      dictish ((pyGet st "backend").getD .null) &&
      dictish ((pyGet st "frontend").getD .null) &&
      dictish ((pyGet st "database").getD .null) &&
      dictish ((pyGet st "infra").getD .null)
  | v => falsy v

/-- Inputs on which every `dict(...)` conversion inside `coerce` succeeds:
the value itself, its `meta` and `stacks`, and the four stack sub-objects
are each absent, falsy, or a mapping. -/
def dictShaped (x : JVal) : Bool :=
  dictish x &&
  (match x with
   | .obj m =>
       dictish ((pyGet m "meta").getD .null) &&
       stacksShaped ((pyGet m "stacks").getD .null)
   | _ => true)

/-! ### The requirements agent (`requirements_agent.py`) -/

/-- The trigger pattern `(?i)\s*(req|requirement|must)[:\-]\s*(.+)` applied
with `re.match` to an already-stripped line.  The alternation tries `req`
first; when its following character is not `:`/`-` the engine backtracks to
`requirement`, then `must`.  The captured requirement text is the remainder,
which the caller strips (`m.group(2).strip()` together with the `\s*`
amounts to a strip of the remainder); `(.+)` only requires the remainder to
be non-empty, as a split line contains no newline. -/
def reqTrigger (line : List Char) : Option (List Char) :=
  let l := line.dropWhile pySpace
  let tryKey : List Char → Option (List Char) := fun k =>
    if lowerStarts l k then
      match l.drop k.length with
      | sep :: rest =>
          if (sep = ':' || sep = '-') && rest ≠ [] then some (stripChars rest)
          else none
      | [] => none
    else none
  match tryKey "req".data with
  | some t => some t
  | none =>
      match tryKey "requirement".data with
      | some t => some t
      | none => tryKey "must".data

/-- A requirement record.  `id` is kept as a dynamic value because the
model-assisted path copies whatever the model supplied; `none` for the
other fields models an absent dict key. -/
structure Req where
  id : JVal
  text : String
  component : Option JVal := none
  priority : Option JVal := none
  acceptance : Option JVal := none

/-- Text of the synthetic health requirement. -/
def healthText : String :=
  "API exposes GET /health returning 200 with \x7bstatus:'ok'\x7d"

/-- Acceptance entry of the synthetic health requirement. -/
def healthAcceptance : String := "GET /health == 200 && body.status == 'ok'"

/-- The synthetic health requirement appended by `_heuristic_requirements`. -/
def healthReq (n : Nat) : Req :=
  { id := .str (mk_id n), text := healthText,
    component := some (.str "backend"), priority := some (.str "P0"),
    acceptance := some (.arr [.str healthAcceptance]) }

/-- The line loop of `_heuristic_requirements`, with the running counter. -/
def heuristicReqsGo : List (List Char) → Nat → List Req
  | [], n => [healthReq n]
  | line :: rest, n =>
      match reqTrigger (stripChars line) with
      | some t =>
          { id := .str (mk_id n), text := String.mk t,
            component := some (.str "any"), priority := some (.str "P2"),
            acceptance := some (.arr []) } :: heuristicReqsGo rest (n + 1)
      | none => heuristicReqsGo rest n

/-- `_heuristic_requirements`. -/
def heuristic_requirements (prd : String) : List Req :=
  heuristicReqsGo (pySplitlines prd) 1

/-- The deduplication loop of `extract_requirements`: `seen` is the set of
lower-cased texts already processed; first occurrence wins. -/
def dedupByTextAux : List String → List Req → List Req
  | _, [] => []
  | seen, r :: rs =>
      let k := pyLower r.text
      if seen.contains k then dedupByTextAux seen rs
      else r :: dedupByTextAux (k :: seen) rs

/-- One step of the renumber/backfill loop (`for i, r in enumerate(out, 1)`):
an `id` failing `^R-\d\x7b4\x7d$` is replaced by `_mk_id(i)`; absent
component/priority/acceptance get their defaults.  A non-string `id` makes
`re.match` raise a `TypeError` in the Python loop; the failure is modelled
here (no theorem depends on the precise crash site). -/
def fillReq (i : Nat) (r : Req) : Except Unit Req :=
  match r.id with
  | .str s =>
      .ok { r with
            id := .str (if matchesRId s then s else mk_id i),
            component := some (r.component.getD (.str "any")),
            priority := some (r.priority.getD (.str "P2")),
            acceptance := some (r.acceptance.getD (.arr [])) }
  | _ => .error ()

/-- The renumber/backfill loop, 1-based. -/
def renumberFill : Nat → List Req → Except Unit (List Req)
  | _, [] => .ok []
  | i, r :: rs => do
      let r' ← fillReq i r
      let rs' ← renumberFill (i + 1) rs
      return r' :: rs'

/-- The whole post-processing of `extract_requirements` (dedup, renumber,
backfill). -/
def cleanRequirements (l : List Req) : Except Unit (List Req) :=
  renumberFill 1 (dedupByTextAux [] l)

/-- `extract_requirements` with `USE_LLM` unset (the heuristic mode). -/
def extract_requirements_heuristic (prd : String) : Except Unit (List Req) :=
  cleanRequirements (heuristic_requirements prd)

/-- One entry of the `_llm_extract` parse loop of `requirements_agent.py`:
non-dict entries and entries with falsy `text` are skipped; a truthy
non-string `text` makes `.strip()` raise (caught by the caller); `id`
defaults to `_mk_id(c)`, component/priority to `"any"`/`"P2"`, and a
non-list acceptance becomes `[]`. -/
def llmReqEntry (c : Nat) (d : JObj) : Except Unit (Option Req) :=
  match pyGet d "text" with
  | some (.str t) =>
      if t = "" then .ok none
      else .ok (some
        { id := (pyGet d "id").getD (.str (mk_id c)),
          text := pyStrip t,
          component := some ((pyGet d "component").getD (.str "any")),
          priority := some ((pyGet d "priority").getD (.str "P2")),
          acceptance := some (match pyGet d "acceptance" with
            | some (.arr l) => .arr l
            | _ => .arr []) })
  | some v => if falsy v then .ok none else .error ()
  | none => .ok none

/-- The `_llm_extract` loop over a parsed response; `c` counts appended
entries (it numbers the default ids). -/
def llmReqsGo : Nat → List JVal → Except Unit (List Req)
  | _, [] => .ok []
  | c, d :: ds =>
      match d with
      | .obj m => do
          match ← llmReqEntry c m with
          | some r => do
              let rest ← llmReqsGo (c + 1) ds
              return r :: rest
          | none => llmReqsGo c ds
      | _ => llmReqsGo c ds

/-- `_llm_extract` applied to the parsed model response (a non-list parse
yields no requirements). -/
def llm_extract (response : JVal) : Except Unit (List Req) :=
  match response with
  | .arr l => llmReqsGo 1 l
  | _ => .ok []

/-- `extract_requirements` with `USE_LLM=true`, as a function of the parsed
model response: an exception inside `_llm_extract` (and an empty result)
falls back to the heuristic list; the post-processing always runs. -/
def extract_requirements_llm (response : JVal) (prd : String) :
    Except Unit (List Req) :=
  match llm_extract response with
  | .ok reqs =>
      cleanRequirements (if reqs.isEmpty then heuristic_requirements prd else reqs)
  | .error _ => cleanRequirements (heuristic_requirements prd)

/-! ### The rules agent (`rules_agent.py`)

Each of the six patterns is embedded as an explicit scanner with Python's
leftmost-match and backtracking behaviour.  Two structural facts about the
patterns are used (and recorded here once):

* In `_PAT_CMP`, `_PAT_UNIQUE` and `_PAT_NOT_EMPTY` the optional modal-verb
  group sits between two lazy `[^\n]*?` gaps.  The first gap is expanded
  only after everything to its right has been exhausted at the current
  stop, and at gap length 0 the modal group can never match (its
  alternatives start with a word character while the position just after
  `\b` at the end of the identifier is at a non-word character); so by the
  time the first gap has grown to a position where a modal could match, the
  second gap has already explored every completion.  The modal groups are
  therefore inert and the patterns reduce to: identifier, then the first
  completion of the remaining tail.
* All quantifiers in the patterns range over single-character classes, so
  backtracking is over run lengths only.
-/

/-- `\b` before a pattern that starts with a word character. -/
def bdBefore (prev : Option Char) : Bool :=
  match prev with
  | none => true
  | some c => !wordChar c

/-- `\b` after a pattern that ends with a word character. -/
def bdAfterL (cs : List Char) : Bool :=
  match cs with
  | [] => true
  | c :: _ => !wordChar c

/-- Generic leftmost-existence scan, threading the previous character for
word boundaries. -/
def existsPos (f : Option Char → List Char → Bool) :
    Option Char → List Char → Bool
  | prev, [] => f prev []
  | prev, c :: cs => f prev (c :: cs) || existsPos f (some c) cs

/-- The remainder after a modal of `_PAT_NEG` matching at the head
(boundary before already checked).  `must not` is subsumed by `must`
(whenever it matches, `must` already matched with an earlier end, which
dominates for existence), so only `must`, `cannot`, `can't`, `should not`
are tested. -/
def negModalAt (cs : List Char) : Option (List Char) :=
  if lowerStarts cs "must".data && bdAfterL (cs.drop 4) then some (cs.drop 4)
  else if lowerStarts cs "cannot".data && bdAfterL (cs.drop 6) then some (cs.drop 6)
  else if lowerStarts cs "can't".data && bdAfterL (cs.drop 5) then some (cs.drop 5)
  else if lowerStarts cs "should not".data && bdAfterL (cs.drop 10) then
    some (cs.drop 10)
  else none

/-- `\b(negative|less than\s*0)\b` matching at the head. -/
def negKeyAt (prev : Option Char) (cs : List Char) : Bool :=
  bdBefore prev &&
  ((lowerStarts cs "negative".data && bdAfterL (cs.drop 8)) ||
   (lowerStarts cs "less than".data &&
    (match (cs.drop 9).dropWhile pySpace with
     | '0' :: rest => bdAfterL rest
     | _ => false)))

/-- `_PAT_NEG.search`: a bounded modal somewhere, followed (at or after its
end) by a bounded negativity keyword.  Every modal alternative ends in the
word character `t`, which is passed as the previous character of the
keyword scan. -/
def negMatch (l : List Char) : Bool :=
  existsPos
    (fun prev cs =>
      bdBefore prev &&
      (match negModalAt cs with
       | some rest => existsPos negKeyAt (some 't') rest
       | none => false))
    none l

/-- Character class `[A-Za-z,\s|]` of the enum pattern's options group. -/
def enumClass (c : Char) : Bool :=
  c.isAlpha || c = ',' || pySpace c || c = '|'

/-- `\b(status|state)\b` at the head: returns the captured slice. -/
def enumFieldAt (prev : Option Char) (cs : List Char) : Option (List Char) :=
  if bdBefore prev then
    if lowerStarts cs "status".data && bdAfterL (cs.drop 6) then some (cs.take 6)
    else if lowerStarts cs "state".data && bdAfterL (cs.drop 5) then some (cs.take 5)
    else none
  else none

/-- `\b(can be|allowed|one of)\b` at the head: returns the remainder. -/
def enumKwAt (prev : Option Char) (cs : List Char) : Option (List Char) :=
  if bdBefore prev then
    if lowerStarts cs "can be".data && bdAfterL (cs.drop 6) then some (cs.drop 6)
    else if lowerStarts cs "allowed".data && bdAfterL (cs.drop 7) then some (cs.drop 7)
    else if lowerStarts cs "one of".data && bdAfterL (cs.drop 6) then some (cs.drop 6)
    else none
  else none

/-- The `[: ]+([A-Za-z,\s|]+)` tail after an enum keyword.  `[: ]+` is
greedy; when the class run after it is empty it gives back one character at
a time, which can only produce a single-space capture (only `' '` of
`[: ]` is in the class, and the position it gives back from is followed by
colons only, by maximality). -/
def enumTail (cs : List Char) : Option (List Char) :=
  let run := cs.takeWhile (fun c => c = ':' || c = ' ')
  if run.isEmpty then none
  else
    let rest := cs.drop run.length
    let g := rest.takeWhile enumClass
    if !g.isEmpty then some g
    else if (run.drop 1).contains ' ' then some [' ']
    else none

/-- Rightmost enum keyword (greedy `.*` before it) whose tail succeeds. -/
def enumKwScan : Option Char → List Char → Option (List Char)
  | _, [] => none
  | prev, c :: cs =>
      match enumKwScan (some c) cs with
      | some g => some g
      | none =>
          match enumKwAt prev (c :: cs) with
          | some rest => enumTail rest
          | none => none

/-- `_PAT_ENUM.search`: leftmost `status|state`, then (greedy `.*`) the
rightmost keyword with a non-empty options capture after it; when no
keyword completes, the next field occurrence to the right is tried.
Returns (field slice, options capture).  Both field alternatives end in a
word character, so `'s'` stands in as the previous character of the
keyword scan. -/
def enumMatch : Option Char → List Char → Option (List Char × List Char)
  | _, [] => none
  | prev, c :: cs =>
      match enumFieldAt prev (c :: cs) with
      | some f =>
          (match enumKwScan (some 's') ((c :: cs).drop f.length) with
           | some g => some (f, g)
           | none => enumMatch (some c) cs)
      | none => enumMatch (some c) cs

/-- Python `str.capitalize`: first character upper, the rest lower. -/
def pyCapitalize (l : List Char) : List Char :=
  match l with
  | [] => []
  | c :: cs => c.toUpper :: lowerL cs

/-- `\b([A-Za-z_][A-Za-z0-9_]*)\b` at the head: the full word starting
here (the trailing `\b` forbids any shorter backtrack).  Returns the
identifier and the remainder. -/
def identAt (prev : Option Char) (cs : List Char) :
    Option (List Char × List Char) :=
  if bdBefore prev then
    match cs with
    | c :: _ =>
        if c.isAlpha || c = '_' then
          let iden := cs.takeWhile wordChar
          some (iden, cs.drop iden.length)
        else none
    | [] => none
  else none

/-- The comparison-phrase alternation of `_PAT_CMP`, in source order, with
the operator `_CMP_MAP` assigns to each phrase. -/
def cmpAlts : List (String × String) :=
  [("at least", ">="), ("no less than", ">="),
   ("greater than or equal to", ">="), (">=", ">="),
   ("more than", ">"), ("greater than", ">"), (">", ">"),
   ("less than or equal to", "<="), ("<=", "<="),
   ("at most", "<="), ("no more than", "<="), ("not exceed", "<="),
   ("cannot exceed", "<="), ("must not exceed", "<="),
   ("should not exceed", "<="), ("less than", "<"), ("<", "<")]

/-- `\s*(\d+(?:\.\d+)?)`: skip whitespace, then the numeric capture. -/
def numAt (cs : List Char) : Option (List Char) :=
  let rest := cs.dropWhile pySpace
  let ds := rest.takeWhile Char.isDigit
  if ds.isEmpty then none
  else
    match rest.drop ds.length with
    | '.' :: more =>
        let fs := more.takeWhile Char.isDigit
        if fs.isEmpty then some ds else some (ds ++ '.' :: fs)
    | _ => some ds

/-- All comparison alternatives tried in order at one position; an
alternative whose following number fails hands over to the next. -/
def cmpAltsAt (cs : List Char) : Option (List Char × String × List Char) :=
  (cmpAlts.foldl
    (fun acc alt =>
      match acc with
      | some r => some r
      | none =>
          if lowerStarts cs alt.1.data then
            match numAt (cs.drop alt.1.length) with
            | some v => some (cs.take alt.1.length, alt.2, v)
            | none => none
          else none)
    none)

/-- Lazy scan for the first position where a comparison phrase plus number
completes. -/
def cmpTailScan : List Char → Option (List Char × String × List Char)
  | [] => none
  | c :: cs =>
      match cmpAltsAt (c :: cs) with
      | some r => some r
      | none => cmpTailScan cs

/-- `_PAT_CMP.search` (with the inert modal group elided, see above):
leftmost identifier whose tail completes with a comparison phrase and a
number.  Returns (field, phrase slice, operator, number slice). -/
def cmpMatch : Option Char → List Char →
    Option (List Char × List Char × String × List Char)
  | _, [] => none
  | prev, c :: cs =>
      match identAt prev (c :: cs) with
      | some (f, rest) =>
          (match cmpTailScan rest with
           | some (sl, op, v) => some (f, sl, op, v)
           | none => cmpMatch (some c) cs)
      | none => cmpMatch (some c) cs

/-- `\bunique\b` somewhere in the tail (previous character threaded). -/
def uniqueAfter : Option Char → List Char → Bool :=
  existsPos (fun prev cs =>
    bdBefore prev && lowerStarts cs "unique".data && bdAfterL (cs.drop 6))

/-- `_PAT_UNIQUE.search` (modal group inert): leftmost identifier followed
somewhere by a bounded `unique`. -/
def uniqueMatch : Option Char → List Char → Option (List Char)
  | _, [] => none
  | prev, c :: cs =>
      match identAt prev (c :: cs) with
      | some (f, rest) =>
          if uniqueAfter (some (f.getLastD '_')) rest then some f
          else uniqueMatch (some c) cs
      | none => uniqueMatch (some c) cs

/-- One of the non-empty phrases of `_PAT_NOT_EMPTY` at the head (no word
boundaries in the source pattern). -/
def notEmptyKeyAt (cs : List Char) : Bool :=
  lowerStarts cs "not be empty".data || lowerStarts cs "not be blank".data ||
  lowerStarts cs "be required".data || lowerStarts cs "is required".data ||
  lowerStarts cs "required".data

/-- A non-empty phrase somewhere in the tail. -/
def notEmptyAfter : List Char → Bool
  | [] => false
  | c :: cs => notEmptyKeyAt (c :: cs) || notEmptyAfter cs

/-- `_PAT_NOT_EMPTY.search` (modal group inert): leftmost identifier
followed somewhere by a non-empty phrase. -/
def notEmptyMatch : Option Char → List Char → Option (List Char)
  | _, [] => none
  | prev, c :: cs =>
      match identAt prev (c :: cs) with
      | some (f, rest) =>
          if notEmptyAfter rest then some f else notEmptyMatch (some c) cs
      | none => notEmptyMatch (some c) cs

/-- `_PAT_EQ.match`: `^([A-Za-z_][\w\.]*)\s*=\s*(.+)$`, anchored at the
start of the (stripped) line.  The class of the target includes dots; the
right-hand side is the rest of the line after the `=` and the whitespace
(non-empty, and a stripped line cannot end in whitespace). -/
def eqMatch (l : List Char) : Option (List Char × List Char) :=
  match l with
  | c :: _ =>
      if c.isAlpha || c = '_' then
        let iden := l.takeWhile (fun ch => wordChar ch || ch = '.')
        match (l.drop iden.length).dropWhile pySpace with
        | '=' :: tail =>
            let rhs := tail.dropWhile pySpace
            if rhs.isEmpty then none else some (iden, rhs)
        | _ => none
      else none
  | [] => none

/-- `re.search(r"\b([A-Za-z_][A-Za-z0-9_]*)\b", l)`: the first identifier
on the line (used for the non-negativity target guess). -/
def firstIdent : Option Char → List Char → Option (List Char)
  | _, [] => none
  | prev, c :: cs =>
      match identAt prev (c :: cs) with
      | some (f, _) => some f
      | none => firstIdent (some c) cs

/-- A business-rule record (all five fields are strings on every heuristic
path). -/
structure Rule where
  id : String
  target : String
  kind : String
  expr : String
  message : String
  deriving DecidableEq

/-- `re.split(r"[,\|]", s)`: split at every comma or pipe. -/
def splitCommaPipe (l : List Char) : List (List Char) :=
  match l with
  | [] => [[]]
  | c :: cs =>
      let r := splitCommaPipe cs
      if c = ',' || c = '|' then [] :: r
      else
        match r with
        | h :: t => (c :: h) :: t
        | [] => [[c]]

/-- The enum options: split, strip, drop empties, lower-case. -/
def enumOptions (g : List Char) : List (List Char) :=
  ((splitCommaPipe g).map stripChars).filterMap
    (fun w => if w.isEmpty then none else some (lowerL w))

/-- `str(list_of_strings)` as Python prints it.  The options can contain
no quote or backslash (the capture class excludes them), so `repr` of each
element is just single quotes around it. -/
def pyListRepr (opts : List (List Char)) : List Char :=
  '[' :: (List.intercalate [',', ' ']
    (opts.map (fun o => '\'' :: o ++ ['\'']))) ++ [']']

/-- `f"\x7bfield.capitalize()\x7d.\x7bfield.lower()\x7d"`. -/
def targetOf (f : List Char) : String :=
  String.mk (pyCapitalize f ++ '.' :: lowerL f)

/-- `comp.lower().startswith(("cannot", "must not", "should not", "not"))`. -/
def cmpMsgNeg (c : List Char) : Bool :=
  lowerStarts c "cannot".data || lowerStarts c "must not".data ||
  lowerStarts c "should not".data || lowerStarts c "not".data

/-- The per-line pattern cascade of `_heuristic_rules` (first match wins,
in source order), for a non-empty stripped line, with the rule counter. -/
def ruleOfLine (n : Nat) (l : List Char) : Option Rule :=
  if negMatch l then
    let f := (firstIdent none l).getD "amount".data
    some { id := mk_brid n,
           target := String.mk (pyCapitalize f ++ ".amount".data),
           kind := "constraint", expr := "amount >= 0",
           message := "amount must not be negative" }
  else
    match enumMatch none l with
    | some (f, g) =>
        let opts := enumOptions g
        some { id := mk_brid n, target := targetOf f, kind := "constraint",
               expr := String.mk (lowerL f ++ " in ".data ++ pyListRepr opts),
               message := String.mk (f ++ " must be one of ".data ++ pyListRepr opts) }
    | none =>
        match cmpMatch none l with
        | some (f, sl, op, v) =>
            some { id := mk_brid n, target := targetOf f, kind := "constraint",
                   expr := String.mk (lowerL f ++ ' ' :: op.data ++ ' ' :: v),
                   message := String.mk (if cmpMsgNeg (lowerL sl) then
                       f ++ ' ' :: lowerL sl ++ ' ' :: v
                     else f ++ " must be ".data ++ lowerL sl ++ ' ' :: v) }
        | none =>
            match uniqueMatch none l with
            | some f =>
                some { id := mk_brid n, target := targetOf f,
                       kind := "constraint",
                       expr := String.mk ("unique(".data ++ lowerL f ++ [')']),
                       message := String.mk (f ++ " must be unique".data) }
            | none =>
                match notEmptyMatch none l with
                | some f =>
                    some { id := mk_brid n, target := targetOf f,
                           kind := "constraint",
                           expr := String.mk (lowerL f ++ " not in (None, '')".data),
                           message := String.mk (f ++ " must not be empty".data) }
                | none =>
                    match eqMatch l with
                    | some (t, rhs) =>
                        some { id := mk_brid n, target := String.mk t,
                               kind := "derivation",
                               expr := String.mk (t ++ " == ".data ++ rhs),
                               message := String.mk (t ++ " must equal ".data ++ rhs) }
                    | none => none

/-- The line loop of `_heuristic_rules` (empty stripped lines skipped,
counter advanced only on emission). -/
def heuristicRulesGo : Nat → List (List Char) → List Rule
  | _, [] => []
  | n, line :: rest =>
      let l := stripChars line
      if l.isEmpty then heuristicRulesGo n rest
      else
        match ruleOfLine n l with
        | some r => r :: heuristicRulesGo (n + 1) rest
        | none => heuristicRulesGo n rest

/-- `_heuristic_rules`. -/
def heuristic_rules (prd : String) : List Rule :=
  heuristicRulesGo 1 (pySplitlines prd)

/-- A heuristic rule as the Python dict it is built as. -/
def ruleToJObj (r : Rule) : JObj :=
  [("id", .str r.id), ("target", .str r.target), ("kind", .str r.kind),
   ("expr", .str r.expr), ("message", .str r.message)]

/-- The parse loop of `_llm_rules`: non-dict entries and entries with falsy
`expr` are skipped; missing `id`/`kind`/`message` are backfilled
(`_mk_id(c)` counts appended entries); everything else is kept verbatim. -/
def llmRulesGo : Nat → List JVal → List JObj
  | _, [] => []
  | c, d :: ds =>
      match d with
      | .obj m =>
          if falsy ((pyGet m "expr").getD .null) then llmRulesGo c ds
          else
            let m := pySetdefault m "id" (.str (mk_brid c))
            let m := pySetdefault m "kind" (.str "constraint")
            let m := pySetdefault m "message" (.str "")
            m :: llmRulesGo (c + 1) ds
      | _ => llmRulesGo c ds

/-- `_llm_rules` as a function of the parsed model response: an empty (or
non-list) result falls back to the heuristic rules. -/
def llm_rules (response : JVal) (prd : String) : List JObj :=
  let out := match response with
    | .arr l => llmRulesGo 1 l
    | _ => []
  if out.isEmpty then (heuristic_rules prd).map ruleToJObj else out

/-- `extract_rules` with `USE_LLM` unset (the heuristic mode). -/
def extract_rules_heuristic (prd : String) : List Rule :=
  heuristic_rules prd

/-! ### The enricher (`spec_enricher.py`) -/

/-- A field record; `none` models an absent dict key. -/
structure Field where
  name : String
  type : String
  pk : Option Bool := none
  uniq : Option Bool := none
  fk : Option String := none
  deriving DecidableEq

/-- An entity record. -/
structure Entity where
  name : String
  fields : List Field
  deriving DecidableEq

/-- A workflow record. -/
structure Workflow where
  name : String
  trigger : String
  actions : List String
  deriving DecidableEq

/-- `_uniq`: deduplication by the canonical (`sort_keys`) serialization,
which on these records coincides with structural equality; first
occurrence wins. -/
def uniqStructAux {α : Type} [DecidableEq α] : List α → List α → List α
  | _, [] => []
  | seen, x :: xs =>
      if seen.contains x then uniqStructAux seen xs
      else x :: uniqStructAux (x :: seen) xs

/-- `_uniq` with an empty seen set. -/
def uniqStruct {α : Type} [DecidableEq α] (l : List α) : List α :=
  uniqStructAux [] l

/-- Split at every comma (`.split(",")`). -/
def splitComma (l : List Char) : List (List Char) :=
  match l with
  | [] => [[]]
  | c :: cs =>
      let r := splitComma cs
      if c = ',' then [] :: r
      else
        match r with
        | h :: t => (c :: h) :: t
        | [] => [[c]]

/-- Split at every semicolon or comma (`re.split(r"[;,]", s)`). -/
def splitSemiComma (l : List Char) : List (List Char) :=
  match l with
  | [] => [[]]
  | c :: cs =>
      let r := splitSemiComma cs
      if c = ';' || c = ',' then [] :: r
      else
        match r with
        | h :: t => (c :: h) :: t
        | [] => [[c]]

/-- Split at every newline (for `re.M` per-line matching). -/
def splitNl (l : List Char) : List (List Char) :=
  match l with
  | [] => [[]]
  | c :: cs =>
      let r := splitNl cs
      if c = '\n' then [] :: r
      else
        match r with
        | h :: t => (c :: h) :: t
        | [] => [[c]]

/-- One attempt of `(?i)\bentity:\s*([A-Za-z][A-Za-z0-9_]*)\s*\(([^)]+)\)`
at the current position; returns the entity and the remainder after the
closing parenthesis (all quantified atoms are single-character classes
disjoint from their successors, so greedy runs need no backtracking). -/
def tryEntityAt (prev : Option Char) (cs : List Char) :
    Option (Entity × List Char) :=
  if bdBefore prev && lowerStarts cs "entity:".data then
    let w1 := (cs.drop 7).dropWhile pySpace
    match w1 with
    | c :: _ =>
        if c.isAlpha then
          let nm := w1.takeWhile wordChar
          match (w1.drop nm.length).dropWhile pySpace with
          | '(' :: inner =>
              let body := inner.takeWhile (fun ch => ch ≠ ')')
              if body.isEmpty then none
              else
                match inner.drop body.length with
                | ')' :: rest =>
                    let fields := (splitComma body).filterMap
                      (fun f =>
                        let f := stripChars f
                        if f.isEmpty then none
                        else some ({ name := String.mk f, type := "string" } : Field))
                    some ({ name := String.mk nm, fields := fields }, rest)
                | _ => none
          | _ => none
        else none
    | [] => none
  else none

/-- `finditer` scan for inline entity declarations (non-overlapping; the
remainder of a match is a strict suffix, recovered by its length; the scan
runs on a fuel bound — the input length — which always suffices since every
step consumes at least one character). -/
def scanEntitiesGo : Nat → Option Char → List Char → List Entity
  | 0, _, _ => []
  | _, _, [] => []
  | fuel + 1, prev, c :: cs =>
      match tryEntityAt prev (c :: cs) with
      | some (e, rest) =>
          e :: scanEntitiesGo fuel (some ')')
            ((c :: cs).drop ((c :: cs).length - rest.length - 1 + 1))
      | none => scanEntitiesGo fuel (some c) cs

/-- Entity scan over the whole PRD. -/
def scanEntities (prev : Option Char) (cs : List Char) : List Entity :=
  scanEntitiesGo cs.length prev cs

/-- `re.split(r"\n(?=#+\s)", prd)`: a block break at each newline followed
by a heading marker (`#` run then a whitespace character). -/
def headingAfter (cs : List Char) : Bool :=
  let h := cs.takeWhile (fun c => c = '#')
  !h.isEmpty &&
  (match cs.drop h.length with
   | c :: _ => pySpace c
   | [] => false)

/-- Worker for `splitHeadings`. -/
def splitHeadingsAux : List Char → List Char → List (List Char)
  | [], acc => [acc.reverse]
  | '\n' :: rest, acc =>
      if headingAfter rest then acc.reverse :: splitHeadingsAux rest []
      else splitHeadingsAux rest ('\n' :: acc)
  | c :: rest, acc => splitHeadingsAux rest (c :: acc)

/-- The heading-based block split. -/
def splitHeadings (cs : List Char) : List (List Char) :=
  splitHeadingsAux cs []

/-- `re.match(r"#+\s*([A-Za-z][A-Za-z0-9_]*)", b)`: heading name of a
block. -/
def blockHeading (b : List Char) : Option (List Char) :=
  let h := b.takeWhile (fun c => c = '#')
  if h.isEmpty then none
  else
    match (b.drop h.length).dropWhile pySpace with
    | c :: rest =>
        if c.isAlpha then some (c :: rest.takeWhile wordChar) else none
    | [] => none

/-- `^\s*[-*]\s*([A-Za-z][A-Za-z0-9_]*)\s*$` against one (multiline-mode)
line. -/
def bulletName (line : List Char) : Option (List Char) :=
  match line.dropWhile pySpace with
  | c :: rest =>
      if c = '-' || c = '*' then
        match rest.dropWhile pySpace with
        | d :: rest2 =>
            if d.isAlpha then
              let nm := d :: rest2.takeWhile wordChar
              if ((d :: rest2).drop nm.length).all pySpace then some nm else none
            else none
        | [] => none
      else none
  | [] => none

/-- The default `Customer` entity synthesized when nothing was found. -/
def customerEntity : Entity :=
  { name := "Customer",
    fields := [{ name := "id", type := "uuid", pk := some true },
               { name := "email", type := "string", uniq := some true },
               { name := "name", type := "string" }] }

/-- `_heuristic_entities`: inline declarations, then heading blocks with
bulleted field lines, the `Customer` default when both are empty, then
`_uniq`. -/
def heuristic_entities (prd : String) : List Entity :=
  let inline := scanEntities none prd.data
  let blocks := (splitHeadings prd.data).filterMap
    (fun b =>
      match blockHeading b with
      | some nm =>
          let bf := (splitNl b).filterMap bulletName
          if bf.isEmpty then none
          else some ({ name := String.mk nm,
                       fields := bf.map
                         (fun f => { name := String.mk f, type := "string" }) } : Entity)
      | none => none)
  let entities := inline ++ blocks
  uniqStruct (if entities.isEmpty then [customerEntity] else entities)

/-- The `:\s*(.+)` part of the workflow pattern: maximal whitespace run,
then the greedy action capture up to the next newline; at end of input the
greedy `\s*` gives characters back until a non-newline one can serve as the
one-character capture.  Returns the capture and the characters consumed. -/
def afterColon (tail : List Char) : Option (List Char × Nat) :=
  let p := tail.takeWhile pySpace
  match tail.drop p.length with
  | c :: rest =>
      let act := c :: rest.takeWhile (fun ch => ch ≠ '\n')
      some (act, p.length + act.length)
  | [] =>
      match p.reverse.dropWhile (fun ch => ch = '\n') with
      | x :: tl => some ([x], tl.length + 1)
      | [] => none

/-- The lazy `(.+?):` scan of the workflow pattern: the first colon (at
index ≥ 1, before any newline) whose tail completes; `trigRev` is the
reversed trigger accumulated so far. -/
def flowColonScan (trigRev : List Char) : List Char →
    Option (List Char × List Char × List Char)
  | [] => none
  | c :: cs =>
      if c = '\n' then none
      else if c = ':' && !trigRev.isEmpty then
        match afterColon cs with
        | some (act, consumed) => some (trigRev.reverse, act, cs.drop consumed)
        | none => flowColonScan (c :: trigRev) cs
      else flowColonScan (c :: trigRev) cs

/-- One attempt of `(?i)(?:when|on)\s+(.+?):\s*(.+)` at the current
position (the pattern has no word boundaries); returns the workflow and
the remainder after the match.  The greedy `\s+` never usefully gives
characters back to the lazy trigger: a shorter whitespace run offers the
same colons with the same completions, only tried later. -/
def tryFlowAt (cs : List Char) : Option (Workflow × List Char) :=
  let k := if lowerStarts cs "when".data then some 4
           else if lowerStarts cs "on".data then some 2
           else none
  match k with
  | none => none
  | some k =>
      let after := cs.drop k
      let w := after.takeWhile pySpace
      if w.isEmpty then none
      else
        match flowColonScan [] (after.drop w.length) with
        | some (trig, act, rest) =>
            let trigger := stripChars trig
            let actions := ((splitSemiComma act).map stripChars).filterMap
              (fun a => if a.isEmpty then none else some (String.mk a))
            some ({ name := String.mk (trigger.take 40),
                    trigger := String.mk trigger, actions := actions }, rest)
        | none => none

/-- `finditer` scan for workflow declarations (fuel-structural as above). -/
def scanFlowsGo : Nat → List Char → List Workflow
  | 0, _ => []
  | _, [] => []
  | fuel + 1, c :: cs =>
      match tryFlowAt (c :: cs) with
      | some (f, rest) =>
          f :: scanFlowsGo fuel
            ((c :: cs).drop ((c :: cs).length - rest.length - 1 + 1))
      | none => scanFlowsGo fuel cs

/-- Workflow scan over the whole PRD. -/
def scanFlows (cs : List Char) : List Workflow := scanFlowsGo cs.length cs

/-- `_heuristic_workflows`. -/
def heuristic_workflows (prd : String) : List Workflow :=
  uniqStruct (scanFlows prd.data)

/-! ### `json.dumps` of the workflow list, and `_ensure_health` -/

/-- Hexadecimal digit characters (lower case, as `json.dumps` emits). -/
def hexChar (n : Nat) : Char :=
  if n < 10 then digitChar n
  else match n with
    | 10 => 'a' | 11 => 'b' | 12 => 'c' | 13 => 'd' | 14 => 'e' | _ => 'f'

/-- Four hex digits. -/
def hex4 (n : Nat) : List Char :=
  [hexChar (n / 4096 % 16), hexChar (n / 256 % 16),
   hexChar (n / 16 % 16), hexChar (n % 16)]

/-- `json.dumps` escaping of one character (`ensure_ascii=True`): the two
character escapes, the short control escapes, `\uXXXX` for other control
and all non-ASCII characters (surrogate pairs beyond the BMP). -/
def escChar (c : Char) : List Char :=
  if c = '"' then ['\\', '"']
  else if c = '\\' then ['\\', '\\']
  else if c = '\n' then ['\\', 'n']
  else if c = '\r' then ['\\', 'r']
  else if c = '\t' then ['\\', 't']
  else if c.toNat = 8 then ['\\', 'b']
  else if c.toNat = 12 then ['\\', 'f']
  else if c.toNat < 0x20 || c.toNat ≥ 0x7f then
    if c.toNat < 0x10000 then '\\' :: 'u' :: hex4 c.toNat
    else
      '\\' :: 'u' :: hex4 (0xD800 + (c.toNat - 0x10000) / 1024) ++
      '\\' :: 'u' :: hex4 (0xDC00 + (c.toNat - 0x10000) % 1024)
  else [c]

/-- A JSON string literal. -/
def jstr (s : String) : List Char :=
  '"' :: s.data.flatMap escChar ++ ['"']

/-- `json.dumps` of one workflow dict (insertion order `name`, `trigger`,
`actions`; default separators). -/
def dumpW (w : Workflow) : List Char :=
  '\x7b' :: "\"name\": ".data ++ jstr w.name ++
  ", \"trigger\": ".data ++ jstr w.trigger ++
  ", \"actions\": [".data ++
  List.intercalate ", ".data (w.actions.map jstr) ++ [']', '\x7d']

/-- `json.dumps` of the workflow list. -/
def dumpFlows (flows : List Workflow) : List Char :=
  '[' :: List.intercalate ", ".data (flows.map dumpW) ++ [']']

/-- Prefix test on character lists. -/
def prefixSeq : List Char → List Char → Bool
  | [], _ => true
  | _ :: _, [] => false
  | p :: ps, h :: hs => p = h && prefixSeq ps hs

/-- Substring test on character lists. -/
def containsSeq (pat : List Char) : List Char → Bool
  | [] => prefixSeq pat []
  | h :: rest => prefixSeq pat (h :: rest) || containsSeq pat rest

/-- The health workflow `_ensure_health` appends. -/
def healthFlow : Workflow :=
  { name := "Health", trigger := "http",
    actions := ["GET /health returns 200 \x7bstatus:ok\x7d"] }

/-- `_ensure_health`: when the lower-cased serialization of the list
mentions neither `health` nor `/health`, append the health workflow. -/
def ensure_health (flows : List Workflow) : List Workflow :=
  let sLow := lowerL (dumpFlows flows)
  if !containsSeq "health".data sLow && !containsSeq "/health".data sLow then
    flows ++ [healthFlow]
  else flows

/-- The workflow list `enrich_spec` attaches (heuristic mode). -/
def enrichFlows (prd : String) : List Workflow :=
  ensure_health (heuristic_workflows prd)

/-- Encoding of a field record as its Python dict. -/
def fieldToJVal (f : Field) : JVal :=
  .obj ([("name", .str f.name), ("type", .str f.type)] ++
    (match f.pk with | some b => [("pk", .bool b)] | none => []) ++
    (match f.uniq with | some b => [("unique", .bool b)] | none => []) ++
    (match f.fk with | some s => [("fk", .str s)] | none => []))

/-- Encoding of an entity record. -/
def entityToJVal (e : Entity) : JVal :=
  .obj [("name", .str e.name), ("fields", .arr (e.fields.map fieldToJVal))]

/-- Encoding of a workflow record. -/
def workflowToJVal (w : Workflow) : JVal :=
  .obj [("name", .str w.name), ("trigger", .str w.trigger),
        ("actions", .arr (w.actions.map .str))]

/-- Encoding of a requirement record (absent keys omitted). -/
def reqToJVal (r : Req) : JVal :=
  .obj ([("id", r.id), ("text", .str r.text)] ++
    (match r.component with | some v => [("component", v)] | none => []) ++
    (match r.priority with | some v => [("priority", v)] | none => []) ++
    (match r.acceptance with | some v => [("acceptance", v)] | none => []))

/-- `enrich_spec` in heuristic mode (`USE_LLM` unset): a copied dict with
`entities`, `workflows`, `requirements`, `business_rules` (re)assigned, in
source order. -/
def enrich_spec (spec : JObj) (prd : String) : Except Unit JObj := do
  let ents := heuristic_entities prd
  let flows := enrichFlows prd
  let reqs ← extract_requirements_heuristic prd
  let rules := heuristic_rules prd
  let ns := pySet spec "entities" (.arr (ents.map entityToJVal))
  let ns := pySet ns "workflows" (.arr (flows.map workflowToJVal))
  let ns := pySet ns "requirements" (.arr (reqs.map reqToJVal))
  let ns := pySet ns "business_rules"
    (.arr (rules.map (fun r => JVal.obj (ruleToJObj r))))
  return ns

/-! ### `_extract_structured_block` (`spec_agent.py` / `spec_enricher.py`)

The fence pattern is `(?:\s*(yaml|yml|json))?\s*?\n(.*?)` between triple
backticks, with `IGNORECASE | DOTALL`, scanned by `finditer`.  Backtracking
facts used by the embedding: the greedy `\s*` inside the optional group can
only stop at the first non-whitespace character (the tag alternatives start
with letters); the three tag alternatives are mutually exclusive; when the
group (or the newline after it) fails, the engine falls back to skipping
the group, which resolves `\s*?\n` at the first newline of the leading
whitespace run; and a failed close-fence search cannot be rescued by a
different newline choice, since any later body start is a suffix of the
earlier one and the characters between candidate newlines contain no
backtick. -/

/-- `\s*?\n`: lazily consume whitespace up to the first newline; returns
the remainder after that newline. -/
def lazyNl (l : List Char) : Option (List Char) :=
  let w := l.takeWhile (fun c => pySpace c && c ≠ '\n')
  match l.drop w.length with
  | '\n' :: body => some body
  | _ => none

/-- The tag alternation `(yaml|yml|json)` at the head (case-insensitive);
returns the matched length. -/
def fenceTagAt (l : List Char) : Option Nat :=
  if lowerStarts l "yaml".data then some 4
  else if lowerStarts l "yml".data then some 3
  else if lowerStarts l "json".data then some 4
  else none

/-- First close fence: splits the input at the first triple backtick. -/
def findFence : List Char → Option (List Char × List Char)
  | [] => none
  | c :: cs =>
      if prefixSeq "```".data (c :: cs) then some ([], cs.drop 2)
      else
        match findFence cs with
        | some (b, a) => some (c :: b, a)
        | none => none

/-- One attempt of the fence pattern at the current position: the captured
tag (empty when the optional group is skipped), the lazy body up to the
first close fence, and the remainder after the match. -/
def tryFenceAt (cs : List Char) : Option ((List Char × List Char) × List Char) :=
  if prefixSeq "```".data cs then
    let r := cs.drop 3
    let afterWs := r.dropWhile pySpace
    let attempt : Option (List Char × List Char) :=
      match fenceTagAt afterWs with
      | some tl =>
          (match lazyNl (afterWs.drop tl) with
           | some b => some (afterWs.take tl, b)
           | none =>
               match lazyNl r with
               | some b => some ([], b)
               | none => none)
      | none =>
          (match lazyNl r with
           | some b => some ([], b)
           | none => none)
    match attempt with
    | some (lang, b) =>
        (match findFence b with
         | some (body, after) => some ((lang, body), after)
         | none => none)
    | none => none
  else none

/-- `finditer` scan for fenced blocks (fuel-structural as above): list of
(tag, body) captures. -/
def scanFencesGo : Nat → List Char → List (List Char × List Char)
  | 0, _ => []
  | _, [] => []
  | fuel + 1, c :: cs =>
      match tryFenceAt (c :: cs) with
      | some (blk, rest) =>
          blk :: scanFencesGo fuel
            ((c :: cs).drop ((c :: cs).length - rest.length - 1 + 1))
      | none => scanFencesGo fuel cs

/-- Fence scan over the whole input. -/
def scanFences (cs : List Char) : List (List Char × List Char) :=
  scanFencesGo cs.length cs

/-- Is the tag of a block `yaml`/`yml` (after lower-casing)? -/
def isYamlTag (b : List Char × List Char) : Bool :=
  lowerL b.1 == "yaml".data || lowerL b.1 == "yml".data

/-- Is the tag of a block `json` (after lower-casing)? -/
def isJsonTag (b : List Char × List Char) : Bool :=
  lowerL b.1 == "json".data

/-- Python `max(blocks, key=...)`: first maximum under strict improvement. -/
def maxByBodyLen (b0 : List Char × List Char) (bs : List (List Char × List Char)) :
    List Char × List Char :=
  bs.foldl (fun best b => if b.2.length > best.2.length then b else best) b0

/-- `_extract_structured_block`: strip, scan for fenced blocks, then first
`yaml`-tagged body, else first `json`-tagged body, else the body of the
longest block, else the stripped input itself. -/
def extract_structured_block (text : String) : String :=
  let t := stripChars text.data
  let blocks := scanFences t
  match blocks.find? isYamlTag with
  | some b => String.mk b.2
  | none =>
      match blocks.find? isJsonTag with
      | some b => String.mk b.2
      | none =>
          match blocks with
          | [] => String.mk t
          | b0 :: rest => String.mk (maxByBodyLen b0 rest).2


/-! ### Claim-side definitions (formalization of claim wordings) -/

/-- `^BR-\d\x7b4\x7d$` as a boolean test (the claimed rule-id format). -/
def matchesBRId (s : String) : Bool :=
  match s.data with
  | 'B' :: 'R' :: '-' :: rest => fourDigitsNL rest
  | _ => false

/-- Does a requirement's acceptance list include the health assertion? -/
def hasHealthAcceptance (r : Req) : Bool :=
  match r.acceptance with
  | some (.arr l) =>
      l.any (fun v => match v with | .str s => s == healthAcceptance | _ => false)
  | _ => false

/-- The claim's reading of the deduplication: keep each first occurrence of
a case-insensitive text, removing every later duplicate, preserving the
relative order of what remains. -/
def dedupByTextSpec : List Req → List Req
  | [] => []
  | r :: rs =>
      r :: dedupByTextSpec (rs.filter (fun x => !(pyLower x.text == pyLower r.text)))
termination_by l => l.length
decreasing_by
  simp only [List.length_cons]
  exact Nat.lt_succ_of_le (List.length_filter_le _ _)

/-- The claim's reading of the renumber/backfill step: each element is
processed at its (1-based) position in the deduplicated list. -/
def renumberFillSpec (l : List Req) : Except Unit (List Req) :=
  (l.enumFrom 1).mapM (fun p => fillReq p.1 p.2)

/-- The claim's reading of the whole post-processing. -/
def cleanRequirementsSpec (l : List Req) : Except Unit (List Req) :=
  renumberFillSpec (dedupByTextSpec l)

/-- Does the serialized text of one workflow mention `health`
(case-insensitively)?  (`/health` contains `health`.) -/
def mentionsHealth (w : Workflow) : Bool :=
  containsSeq "health".data (lowerL (dumpW w))

/-- Not an ASCII letter or digit. -/
def notAlnum (c : Char) : Bool := !(c.isAlpha || c.isDigit)

/-- The slugification the claim describes for `meta.name`: lower-case, with
every non-alphanumeric character collapsed into hyphens (maximal runs give
one hyphen). -/
def claimSlugGo : Nat → List Char → List Char
  | 0, _ => []
  | _, [] => []
  | fuel + 1, c :: rest =>
      if notAlnum c then '-' :: claimSlugGo fuel (rest.dropWhile notAlnum)
      else lowerCh c :: claimSlugGo fuel rest

/-- Entry point of the claimed slugification. -/
def claimSlug (l : List Char) : List Char := claimSlugGo l.length l

/-- The name-derivation described by the claim for C8: regex-search the PRD
for a label, default `"my-app"`, then slugify per `claimSlug`. -/
def claimDeriveName (prd : String) : String :=
  let n0 := match scanName prd.data with
    | some g => g
    | none => "my-app".data
  String.mk (claimSlug (stripChars n0))


/-- Numeric value of a digit character (proof auxiliary). -/
def digitVal (c : Char) : Nat := c.toNat - 48

/-- Decimal evaluation of a digit string (proof auxiliary, the inverse of
`natDigits`). -/
def evalDigits (ds : List Char) : Nat :=
  ds.foldl (fun a c => 10 * a + digitVal c) 0

/-! ## Supporting lemmas -/

theorem stripRightChars_eq_rdropWhile (l : List Char) :
    stripRightChars l = l.rdropWhile pySpace := rfl

/-- A left-stripped list stays left-stripped under right-stripping. -/
theorem stripLeft_stripChars (l : List Char) :
    stripLeftChars (stripChars l) = stripChars l := by
  unfold stripChars
  rw [stripRightChars_eq_rdropWhile, stripLeftChars, List.dropWhile_eq_self_iff]
  intro hl
  have hpre := List.rdropWhile_prefix pySpace (stripLeftChars l)
  have hlen : 0 < (stripLeftChars l).length := by
    have := hpre.length_le
    omega
  have h0 : ((stripLeftChars l).rdropWhile pySpace).get ⟨0, hl⟩ =
      (stripLeftChars l).get ⟨0, hlen⟩ := by
    simpa using hpre.getElem (n := 0) hl
  rw [h0]
  have hne : l.dropWhile pySpace ≠ [] := by
    intro hnil
    have heq : stripLeftChars l = [] := hnil
    rw [heq] at hlen
    simp at hlen
  have hW := List.head_dropWhile_not pySpace l hne
  rw [List.head_eq_getElem] at hW
  simp only [stripLeftChars, List.get_eq_getElem]
  simp [hW]

theorem stripChars_idem (l : List Char) :
    stripChars (stripChars l) = stripChars l := by
  conv_lhs => rw [stripChars, stripLeft_stripChars]
  rw [stripChars, stripRightChars_eq_rdropWhile, stripRightChars_eq_rdropWhile,
    List.rdropWhile_idempotent]

/-- The replacement table maps everything to an ASCII quote or itself. -/
theorem smartQuote_cases (c : Char) :
    smartQuote c = '\'' ∨ smartQuote c = '"' ∨ smartQuote c = c := by
  unfold smartQuote
  split
  · exact Or.inl rfl
  · split
    · exact Or.inr (Or.inl rfl)
    · exact Or.inr (Or.inr rfl)

/-- `smartQuote` is idempotent: its replacements are plain ASCII quotes,
which the table does not touch. -/
theorem smartQuote_idem (c : Char) :
    smartQuote (smartQuote c) = smartQuote c := by
  rcases smartQuote_cases c with h | h | h <;> rw [h]
  · decide
  · decide
  · rw [h]

/-- Every character of the sanitized output is a fixed point of the whole
replacement pipeline. -/
theorem sanitizeChars_mem (l : List Char) (c : Char) (hc : c ∈ sanitizeChars l) :
    smartQuote c = c ∧ isZeroWidth c = false ∧ isCtrl c = false ∧ c ≠ '\t' := by
  unfold sanitizeChars at hc
  have hc2 : c ∈ (((l.map smartQuote).filter fun c => !isZeroWidth c).filter
      fun c => !isCtrl c).flatMap tabExpand := by
    refine List.IsInfix.subset ?_ hc
    exact ((List.rdropWhile_prefix pySpace _).isInfix.trans
      (List.dropWhile_suffix pySpace).isInfix)
  obtain ⟨a, ha, hca⟩ := List.mem_flatMap.mp hc2
  have h1 := List.mem_filter.mp ha
  have h2 := List.mem_filter.mp h1.1
  by_cases htab : a = '\t'
  · subst htab
    have hsp : c = ' ' := by
      rw [tabExpand, if_pos rfl] at hca
      simpa using hca
    subst hsp
    exact ⟨by decide, by decide, by decide, by decide⟩
  · rw [tabExpand, if_neg htab] at hca
    have hceq : c = a := by simpa using hca
    subst hceq
    obtain ⟨b, _, hb⟩ := List.mem_map.mp h2.1
    refine ⟨?_, ?_, ?_, htab⟩
    · rw [← hb, smartQuote_idem]
    · simpa using h2.2
    · simpa using h1.2

/-- Applying the sanitizing pipeline to its own output changes nothing. -/
theorem sanitizeChars_idem (l : List Char) :
    sanitizeChars (sanitizeChars l) = sanitizeChars l := by
  have hmem := sanitizeChars_mem l
  conv_lhs => rw [sanitizeChars]
  have h1 : (sanitizeChars l).map smartQuote = sanitizeChars l :=
    List.map_congr_left (fun a ha => (hmem a ha).1) |>.trans (List.map_id _)
  rw [h1]
  have h2 : (sanitizeChars l).filter (fun c => !isZeroWidth c) = sanitizeChars l :=
    List.filter_eq_self.mpr (fun a ha => by simp [(hmem a ha).2.1])
  rw [h2]
  have h3 : (sanitizeChars l).filter (fun c => !isCtrl c) = sanitizeChars l :=
    List.filter_eq_self.mpr (fun a ha => by simp [(hmem a ha).2.2.1])
  rw [h3]
  have h4 : (sanitizeChars l).flatMap tabExpand = sanitizeChars l := by
    rw [List.flatMap_congr (g := fun c => [c])
      (fun a ha => by rw [tabExpand, if_neg (hmem a ha).2.2.2])]
    exact List.flatMap_singleton' _
  rw [h4]
  rw [show sanitizeChars l = stripChars ((((l.map smartQuote).filter
      fun c => !isZeroWidth c).filter fun c => !isCtrl c).flatMap tabExpand) from rfl]
  exact stripChars_idem _

/-- Unfolding equation for the deduplication loop. -/
theorem dedupByTextAux_cons (seen : List String) (r : Req) (rs : List Req) :
    dedupByTextAux seen (r :: rs) =
      if seen.contains (pyLower r.text) then dedupByTextAux seen rs
      else r :: dedupByTextAux (pyLower r.text :: seen) rs := rfl

/-- Unfolding equation for the first-occurrence deduplication. -/
theorem dedupByTextSpec_cons (r : Req) (rs : List Req) :
    dedupByTextSpec (r :: rs) =
      r :: dedupByTextSpec (rs.filter fun x => !(pyLower x.text == pyLower r.text)) := by
  rw [dedupByTextSpec]

/-- The sequential renumber loop is the `mapM` over 1-based positions. -/
theorem renumberFill_eq_enumFrom : ∀ (l : List Req) (n : Nat),
    renumberFill n l = (l.enumFrom n).mapM (fun p => fillReq p.1 p.2) := by
  intro l
  induction l with
  | nil => intro n; rfl
  | cons r rs ih =>
      intro n
      rw [List.enumFrom_cons, List.mapM_cons, ← ih (n + 1)]
      rfl

/-- The seen-set deduplication loop equals first-occurrence deduplication
of the not-yet-seen elements. -/
theorem dedupAux_eq_spec : ∀ (l : List Req) (seen : List String),
    dedupByTextAux seen l =
      dedupByTextSpec (l.filter fun x => !(seen.contains (pyLower x.text))) := by
  intro l
  induction l with
  | nil =>
      intro seen
      rw [List.filter_nil]
      rw [show dedupByTextSpec [] = [] from by rw [dedupByTextSpec]]
      rfl
  | cons r rs ih =>
      intro seen
      rw [dedupByTextAux_cons, List.filter_cons]
      by_cases h : seen.contains (pyLower r.text)
      · rw [if_pos h, if_neg (by simp only [h]; decide), ih seen]
      · rw [if_neg h,
          if_pos (by simp only [Bool.not_eq_true] at h; simp only [h]; decide),
          dedupByTextSpec_cons, ih (pyLower r.text :: seen), List.filter_filter]
        apply congrArg
        apply congrArg
        apply List.filter_congr
        intro x _
        simp only [List.contains_cons, Bool.not_or]

theorem digitChar_isDigit (d : Nat) : (digitChar d).isDigit = true := by
  unfold digitChar
  split <;> decide

theorem natDigitsGo_all_digits :
    ∀ (fuel n : Nat), ∀ c ∈ natDigitsGo fuel n, c.isDigit = true := by
  intro fuel
  induction fuel with
  | zero => intro n c hc; cases hc
  | succ fuel ih =>
      intro n c hc
      rw [natDigitsGo] at hc
      split at hc
      · have : c = digitChar n := by simpa using hc
        subst this
        exact digitChar_isDigit n
      · rcases List.mem_append.mp hc with hm | hm
        · exact ih (n / 10) c hm
        · have : c = digitChar (n % 10) := by simpa using hm
          subst this
          exact digitChar_isDigit _

theorem natDigits_all_digits : ∀ n : Nat, ∀ c ∈ natDigits n, c.isDigit = true :=
  fun n => natDigitsGo_all_digits (n + 1) n

theorem natDigitsGo_length_le :
    ∀ (fuel : Nat) (k : Nat), 1 ≤ k → ∀ n : Nat, n < 10 ^ k →
      (natDigitsGo fuel n).length ≤ k := by
  intro fuel
  induction fuel with
  | zero => intro k hk n _; simp only [natDigitsGo, List.length_nil]; omega
  | succ fuel ih =>
      intro k hk n hn
      rw [natDigitsGo]
      split
      · simp only [List.length_singleton]
        omega
      · rename_i h
        rw [List.length_append]
        have hk2 : 2 ≤ k := by
          by_contra h2
          have hk1 : k = 1 := by omega
          subst hk1
          rw [pow_one] at hn
          exact absurd hn h
        have hd : n / 10 < 10 ^ (k - 1) := by
          rw [Nat.div_lt_iff_lt_mul (by omega : 0 < 10)]
          calc n < 10 ^ k := hn
            _ = 10 ^ (k - 1) * 10 := by
                rw [← Nat.pow_succ]
                congr 1
                omega
        have := ih (k - 1) (by omega) (n / 10) hd
        simp only [List.length_singleton]
        omega

theorem natDigits_length_le :
    ∀ k : Nat, 1 ≤ k → ∀ n : Nat, n < 10 ^ k → (natDigits n).length ≤ k :=
  fun k hk n hn => natDigitsGo_length_le (n + 1) k hk n hn

theorem digitVal_digitChar (d : Nat) (hd : d < 10) :
    digitVal (digitChar d) = d := by
  interval_cases d <;> decide

theorem evalDigits_append (ds : List Char) (c : Char) :
    evalDigits (ds ++ [c]) = 10 * evalDigits ds + digitVal c := by
  unfold evalDigits
  rw [List.foldl_append]
  rfl

theorem evalDigits_natDigitsGo :
    ∀ (fuel n : Nat), n < 10 ^ fuel → evalDigits (natDigitsGo fuel n) = n := by
  intro fuel
  induction fuel with
  | zero =>
      intro n hn
      simp at hn
      subst hn
      rfl
  | succ fuel ih =>
      intro n hn
      rw [natDigitsGo]
      split
      · rename_i h
        show 10 * 0 + digitVal (digitChar n) = n
        rw [digitVal_digitChar n h]
        omega
      · rename_i h
        have hd : n / 10 < 10 ^ fuel := by
          rw [Nat.div_lt_iff_lt_mul (by omega : 0 < 10)]
          calc n < 10 ^ (fuel + 1) := hn
            _ = 10 ^ fuel * 10 := by rw [Nat.pow_succ]
        rw [evalDigits_append, ih (n / 10) hd,
          digitVal_digitChar (n % 10) (Nat.mod_lt _ (by omega))]
        omega

theorem evalDigits_natDigits : ∀ n : Nat, evalDigits (natDigits n) = n := by
  intro n
  refine evalDigits_natDigitsGo (n + 1) n ?_
  calc n < 2 ^ n := Nat.lt_two_pow n
    _ ≤ 10 ^ n := Nat.pow_le_pow_left (by omega) n
    _ ≤ 10 ^ (n + 1) := Nat.pow_le_pow_right (by omega) (by omega)

theorem evalDigits_replicate_zero :
    ∀ (k : Nat) (ds : List Char),
      evalDigits (List.replicate k '0' ++ ds) = evalDigits ds := by
  intro k
  induction k with
  | zero => intro ds; simp
  | succ k ih =>
      intro ds
      rw [List.replicate_succ, List.cons_append]
      have h0 : evalDigits ('0' :: (List.replicate k '0' ++ ds)) =
          evalDigits (List.replicate k '0' ++ ds) := rfl
      rw [h0, ih ds]

theorem evalDigits_pad4 (n : Nat) : evalDigits (pad4 (natDigits n)) = n := by
  rw [pad4, evalDigits_replicate_zero, evalDigits_natDigits]

theorem mk_id_inj : Function.Injective mk_id := by
  intro n m h
  have hd : 'R' :: '-' :: pad4 (natDigits n) = 'R' :: '-' :: pad4 (natDigits m) :=
    congrArg String.data h
  have : pad4 (natDigits n) = pad4 (natDigits m) := by
    injection hd with _ hd2
    injection hd2
  calc n = evalDigits (pad4 (natDigits n)) := (evalDigits_pad4 n).symm
    _ = evalDigits (pad4 (natDigits m)) := by rw [this]
    _ = m := evalDigits_pad4 m

theorem mk_brid_inj : Function.Injective mk_brid := by
  intro n m h
  have hd : 'B' :: 'R' :: '-' :: pad4 (natDigits n) =
      'B' :: 'R' :: '-' :: pad4 (natDigits m) := congrArg String.data h
  have : pad4 (natDigits n) = pad4 (natDigits m) := by
    injection hd with _ hd2
    injection hd2 with _ hd3
    injection hd3
  calc n = evalDigits (pad4 (natDigits n)) := (evalDigits_pad4 n).symm
    _ = evalDigits (pad4 (natDigits m)) := by rw [this]
    _ = m := evalDigits_pad4 m

theorem fourDigitsNL_of (ds : List Char) (hlen : ds.length = 4)
    (hd : ∀ c ∈ ds, c.isDigit = true) : fourDigitsNL ds = true := by
  match ds, hlen with
  | [a, b, c, d], _ =>
      simp only [fourDigitsNL, Bool.and_eq_true]
      exact ⟨⟨⟨hd a (by simp), hd b (by simp)⟩, hd c (by simp)⟩, hd d (by simp)⟩

theorem pad4_spec (n : Nat) (h9 : n ≤ 9999) :
    (pad4 (natDigits n)).length = 4 ∧
      ∀ c ∈ pad4 (natDigits n), c.isDigit = true := by
  have hlen : (natDigits n).length ≤ 4 :=
    natDigits_length_le 4 (by omega) n (by omega)
  constructor
  · simp only [pad4, List.length_append, List.length_replicate]
    omega
  · intro c hc
    rcases List.mem_append.mp hc with hm | hm
    · have := List.eq_of_mem_replicate hm
      subst this
      decide
    · exact natDigits_all_digits n c hm

theorem matchesRId_mk_id (n : Nat) (h9 : n ≤ 9999) :
    matchesRId (mk_id n) = true := by
  obtain ⟨hl, hd⟩ := pad4_spec n h9
  show fourDigitsNL (pad4 (natDigits n)) = true
  exact fourDigitsNL_of _ hl hd

theorem matchesBRId_mk_brid (n : Nat) (h9 : n ≤ 9999) :
    matchesBRId (mk_brid n) = true := by
  obtain ⟨hl, hd⟩ := pad4_spec n h9
  show fourDigitsNL (pad4 (natDigits n)) = true
  exact fourDigitsNL_of _ hl hd

/-- The ids of the heuristic requirement list are consecutive `mk_id`
values starting at the initial counter. -/
theorem heuristicReqsGo_ids :
    ∀ (lines : List (List Char)) (n : Nat),
      (heuristicReqsGo lines n).map Req.id =
        (List.range' n (heuristicReqsGo lines n).length).map
          (fun k => JVal.str (mk_id k)) := by
  intro lines
  induction lines with
  | nil =>
      intro n
      simp [heuristicReqsGo, healthReq, List.range'_succ]
  | cons line rest ih =>
      intro n
      cases h : reqTrigger (stripChars line) with
      | some t =>
          simp only [heuristicReqsGo, h]
          rw [List.map_cons, List.length_cons, List.range'_succ, List.map_cons,
            ih (n + 1)]
      | none =>
          simp only [heuristicReqsGo, h]
          exact ih n

/-- Every rule the per-line cascade emits carries the current counter id. -/
theorem ruleOfLine_id (n : Nat) (l : List Char) (r : Rule)
    (h : ruleOfLine n l = some r) : r.id = mk_brid n := by
  unfold ruleOfLine at h
  split at h
  · rw [← Option.some.inj h]
  · split at h
    · rw [← Option.some.inj h]
    · split at h
      · rw [← Option.some.inj h]
      · split at h
        · rw [← Option.some.inj h]
        · split at h
          · rw [← Option.some.inj h]
          · split at h
            · rw [← Option.some.inj h]
            · exact absurd h (by simp)

/-- The ids of the heuristic rule list are consecutive `mk_brid` values
starting at the initial counter. -/
theorem heuristicRulesGo_ids :
    ∀ (lines : List (List Char)) (n : Nat),
      (heuristicRulesGo n lines).map Rule.id =
        (List.range' n (heuristicRulesGo n lines).length).map mk_brid := by
  intro lines
  induction lines with
  | nil => intro n; rfl
  | cons line rest ih =>
      intro n
      by_cases he : (stripChars line).isEmpty
      · simp only [heuristicRulesGo, he, if_true]
        exact ih n
      · cases hr : ruleOfLine n (stripChars line) with
        | some r =>
            simp only [heuristicRulesGo, he, hr, Bool.false_eq_true, if_false]
            rw [List.map_cons, List.length_cons, List.range'_succ, List.map_cons,
              ih (n + 1), ruleOfLine_id n _ r hr]
        | none =>
            simp only [heuristicRulesGo, he, hr, Bool.false_eq_true, if_false]
            exact ih n

/-- The deduplication loop yields a sublist. -/
theorem dedupByTextAux_sublist :
    ∀ (l : List Req) (seen : List String), List.Sublist (dedupByTextAux seen l) l := by
  intro l
  induction l with
  | nil => intro seen; exact List.Sublist.refl _
  | cons r rs ih =>
      intro seen
      rw [dedupByTextAux_cons]
      by_cases h : seen.contains (pyLower r.text)
      · rw [if_pos h]
        exact (ih seen).trans (List.sublist_cons_self r rs)
      · rw [if_neg h]
        exact (ih _).cons₂ r

/-- When every id is a string passing the format test, the renumber loop
succeeds and leaves all ids unchanged. -/
theorem renumberFill_valid :
    ∀ (l : List Req) (n : Nat),
      (∀ r ∈ l, ∃ s, r.id = JVal.str s ∧ matchesRId s = true) →
      ∃ out, renumberFill n l = .ok out ∧ out.map Req.id = l.map Req.id := by
  intro l
  induction l with
  | nil => intro n _; exact ⟨[], rfl, rfl⟩
  | cons r rs ih =>
      intro n h
      obtain ⟨s, hs, hm⟩ := h r (List.mem_cons_self r rs)
      obtain ⟨out, ho, hmap⟩ := ih (n + 1) (fun x hx => h x (List.mem_cons_of_mem _ hx))
      have hfill : fillReq n r = .ok { r with
          id := .str (if matchesRId s then s else mk_id n),
          component := some (r.component.getD (.str "any")),
          priority := some (r.priority.getD (.str "P2")),
          acceptance := some (r.acceptance.getD (.arr [])) } := by
        rw [fillReq, hs]
      refine ⟨{ r with
          id := .str (if matchesRId s then s else mk_id n),
          component := some (r.component.getD (.str "any")),
          priority := some (r.priority.getD (.str "P2")),
          acceptance := some (r.acceptance.getD (.arr [])) } :: out, ?_, ?_⟩
      · rw [show renumberFill n (r :: rs) = (fillReq n r).bind (fun r' =>
            (renumberFill (n + 1) rs).bind (fun rs' => pure (r' :: rs'))) from rfl,
          hfill, ho]
        rfl
      · rw [List.map_cons, List.map_cons, hmap, hs, hm]
        simp

/-- The heuristic list always contains the synthetic health requirement. -/
theorem heuristicReqsGo_health :
    ∀ (lines : List (List Char)) (n : Nat),
      ∃ k, healthReq k ∈ heuristicReqsGo lines n := by
  intro lines
  induction lines with
  | nil => intro n; exact ⟨n, List.mem_singleton_self _⟩
  | cons line rest ih =>
      intro n
      cases h : reqTrigger (stripChars line) with
      | some t =>
          obtain ⟨k, hk⟩ := ih (n + 1)
          refine ⟨k, ?_⟩
          simp only [heuristicReqsGo, h]
          exact List.mem_cons_of_mem _ hk
      | none =>
          obtain ⟨k, hk⟩ := ih n
          refine ⟨k, ?_⟩
          simp only [heuristicReqsGo, h]
          exact hk

/-- Every heuristic requirement id is a string. -/
theorem heuristicReqs_id_str (prd : String) :
    ∀ r ∈ heuristic_requirements prd, ∃ s, r.id = JVal.str s := by
  intro r hr
  have hmem : r.id ∈ (heuristic_requirements prd).map Req.id :=
    List.mem_map_of_mem _ hr
  rw [show (heuristic_requirements prd).map Req.id =
      (List.range' 1 (heuristic_requirements prd).length).map
        (fun k => JVal.str (mk_id k)) from heuristicReqsGo_ids _ 1] at hmem
  obtain ⟨k, _, hkeq⟩ := List.mem_map.mp hmem
  exact ⟨mk_id k, hkeq.symm⟩

/-- An element whose key occurs exactly once in the list survives the
deduplication (provided its key is not already seen). -/
theorem mem_dedup_of_unique_key :
    ∀ (l : List Req) (seen : List String) (x : Req), x ∈ l →
      l.countP (fun y => pyLower y.text == pyLower x.text) = 1 →
      ¬ seen.contains (pyLower x.text) = true →
      x ∈ dedupByTextAux seen l := by
  intro l
  induction l with
  | nil => intro seen x hx; cases hx
  | cons r rs ih =>
      intro seen x hx hcount hseen
      rw [dedupByTextAux_cons]
      rcases List.mem_cons.mp hx with rfl | hx'
      · rw [if_neg hseen]
        exact List.mem_cons_self _ _
      · have hx_pred : (fun y => pyLower y.text == pyLower x.text) x = true := by
          simp
        have hkey : ¬ (pyLower r.text == pyLower x.text) = true := by
          intro hk
          have h1 : 0 < rs.countP (fun y => pyLower y.text == pyLower x.text) :=
            List.countP_pos_iff.mpr ⟨x, hx', hx_pred⟩
          rw [List.countP_cons, if_pos hk] at hcount
          omega
        rw [List.countP_cons, if_neg hkey] at hcount
        by_cases hr : seen.contains (pyLower r.text)
        · rw [if_pos hr]
          exact ih seen x hx' (by omega) hseen
        · rw [if_neg hr]
          refine List.mem_cons_of_mem _ (ih (pyLower r.text :: seen) x hx'
            (by omega) ?_)
          simp only [List.contains_cons, Bool.or_eq_true]
          rintro (h1 | h2)
          · exact hkey (by rw [beq_iff_eq] at h1 ⊢; exact h1.symm)
          · exact hseen h2

/-- When every id is a string, the renumber loop succeeds, and every input
element appears in the output with its text preserved and its optional
fields backfilled. -/
theorem renumberFill_mem_ok :
    ∀ (l : List Req) (n : Nat),
      (∀ r ∈ l, ∃ s, r.id = JVal.str s) →
      ∃ out, renumberFill n l = .ok out ∧
        ∀ x ∈ l, ∃ x' ∈ out, x'.text = x.text ∧
          x'.component = some (x.component.getD (.str "any")) ∧
          x'.priority = some (x.priority.getD (.str "P2")) ∧
          x'.acceptance = some (x.acceptance.getD (.arr [])) := by
  intro l
  induction l with
  | nil => intro n _; exact ⟨[], rfl, by intro x hx; cases hx⟩
  | cons r rs ih =>
      intro n h
      obtain ⟨s, hs⟩ := h r (List.mem_cons_self r rs)
      obtain ⟨out, ho, hmem⟩ := ih (n + 1) (fun x hx => h x (List.mem_cons_of_mem _ hx))
      have hfill : fillReq n r = .ok { r with
          id := .str (if matchesRId s then s else mk_id n),
          component := some (r.component.getD (.str "any")),
          priority := some (r.priority.getD (.str "P2")),
          acceptance := some (r.acceptance.getD (.arr [])) } := by
        rw [fillReq, hs]
      refine ⟨{ r with
          id := .str (if matchesRId s then s else mk_id n),
          component := some (r.component.getD (.str "any")),
          priority := some (r.priority.getD (.str "P2")),
          acceptance := some (r.acceptance.getD (.arr [])) } :: out, ?_, ?_⟩
      · rw [show renumberFill n (r :: rs) = (fillReq n r).bind (fun r' =>
            (renumberFill (n + 1) rs).bind (fun rs' => pure (r' :: rs'))) from rfl,
          hfill, ho]
        rfl
      · intro x hx
        rcases List.mem_cons.mp hx with rfl | hx'
        · exact ⟨_, List.mem_cons_self _ _, rfl, rfl, rfl, rfl⟩
        · obtain ⟨x', hx'mem, hprops⟩ := hmem x hx'
          exact ⟨x', List.mem_cons_of_mem _ hx'mem, hprops⟩

/-- `find?` returns the element at the first position satisfying the
predicate. -/
theorem find?_of_first {α : Type} :
    ∀ (l : List α) (p : α → Bool) (i : Nat) (b : α),
      l.get? i = some b → p b = true →
      (∀ j, j < i → ∀ b', l.get? j = some b' → p b' = false) →
      l.find? p = some b := by
  intro l
  induction l with
  | nil => intro p i b hget; cases i <;> cases hget
  | cons a as ih =>
      intro p i b hget hp hfirst
      cases i with
      | zero =>
          have : a = b := by simpa using hget
          subst this
          rw [List.find?_cons_of_pos _ hp]
      | succ i =>
          have ha : p a = false := hfirst 0 (by omega) a rfl
          rw [List.find?_cons_of_neg _ (by simp [ha])]
          exact ih p i b (by simpa using hget) hp
            (fun j hj b' hb' => hfirst (j + 1) (by omega) b' (by simpa using hb'))

/-- Python's `max(key=len)` keeps the first maximum: the result is one of
the candidates and no candidate has a longer body. -/
theorem maxByBodyLen_spec :
    ∀ (bs : List (List Char × List Char)) (b0 : List Char × List Char),
      maxByBodyLen b0 bs ∈ b0 :: bs ∧
      ∀ b' ∈ b0 :: bs, b'.2.length ≤ (maxByBodyLen b0 bs).2.length := by
  intro bs
  induction bs with
  | nil =>
      intro b0
      exact ⟨List.mem_singleton_self _, by
        intro b' hb'
        have : b' = b0 := by simpa using hb'
        subst this
        exact Nat.le_refl _⟩
  | cons b bs ih =>
      intro b0
      have hstep : maxByBodyLen b0 (b :: bs) =
          maxByBodyLen (if b.2.length > b0.2.length then b else b0) bs := rfl
      obtain ⟨hmem, hle⟩ := ih (if b.2.length > b0.2.length then b else b0)
      constructor
      · rw [hstep]
        rcases List.mem_cons.mp hmem with h | h
        · rw [h]
          by_cases hb : b.2.length > b0.2.length
          · rw [if_pos hb]
            exact List.mem_cons_of_mem _ (List.mem_cons_self _ _)
          · rw [if_neg hb]
            exact List.mem_cons_self _ _
        · exact List.mem_cons_of_mem _ (List.mem_cons_of_mem _ h)
      · intro b' hb'
        rw [hstep]
        have hb0' : b0.2.length ≤ (if b.2.length > b0.2.length then b else b0).2.length := by
          by_cases hb : b.2.length > b0.2.length
          · rw [if_pos hb]; omega
          · rw [if_neg hb]
        have hb1' : b.2.length ≤ (if b.2.length > b0.2.length then b else b0).2.length := by
          by_cases hb : b.2.length > b0.2.length
          · rw [if_pos hb]
          · rw [if_neg hb]; omega
        have hhead := hle _ (List.mem_cons_self _ _)
        rcases List.mem_cons.mp hb' with h | h
        · subst h; exact hb0'.trans hhead
        · rcases List.mem_cons.mp h with h2 | h2
          · subst h2; exact hb1'.trans hhead
          · exact hle _ (List.mem_cons_of_mem _ h2)

theorem except_bind_ok {α β : Type} (a : α) (f : α → Except Unit β) :
    ((Except.ok a : Except Unit α) >>= f) = f a := rfl

theorem dictOr_obj (m : JObj) : dictOr (.obj m) = .ok m := by
  cases m with
  | nil => rfl
  | cons a l => rfl

theorem dictOr_ok_of_dictish (v : JVal) (h : dictish v = true) :
    ∃ m, dictOr v = .ok m := by
  unfold dictish at h
  rw [Bool.or_eq_true] at h
  rcases h with hf | ho
  · exact ⟨[], by rw [dictOr, if_pos hf]⟩
  · cases v with
    | obj m => exact ⟨m, dictOr_obj m⟩
    | null => cases ho
    | bool b => cases ho
    | num n => cases ho
    | str s => cases ho
    | arr l => cases ho

theorem stacksShaped_elim (v : JVal) (h : stacksShaped v = true) :
    ∃ st, dictOr v = .ok st ∧
      dictish ((pyGet st "backend").getD .null) = true ∧
      dictish ((pyGet st "frontend").getD .null) = true ∧
      dictish ((pyGet st "database").getD .null) = true ∧
      dictish ((pyGet st "infra").getD .null) = true := by
  cases v with
  | obj st =>
      rw [stacksShaped] at h
      simp only [Bool.and_eq_true] at h
      exact ⟨st, dictOr_obj st, h.1.1.1, h.1.1.2, h.1.2, h.2⟩
  | null =>
      exact ⟨[], by rw [dictOr, if_pos (show falsy JVal.null = true from h)],
        by decide, by decide, by decide, by decide⟩
  | bool b =>
      exact ⟨[], by rw [dictOr, if_pos (show falsy (JVal.bool b) = true from h)],
        by decide, by decide, by decide, by decide⟩
  | num n =>
      exact ⟨[], by rw [dictOr, if_pos (show falsy (JVal.num n) = true from h)],
        by decide, by decide, by decide, by decide⟩
  | str t =>
      exact ⟨[], by rw [dictOr, if_pos (show falsy (JVal.str t) = true from h)],
        by decide, by decide, by decide, by decide⟩
  | arr l =>
      exact ⟨[], by rw [dictOr, if_pos (show falsy (JVal.arr l) = true from h)],
        by decide, by decide, by decide, by decide⟩

theorem pyGet_cons (a : String × JVal) (o : JObj) (k : String) :
    pyGet (a :: o) k = if a.1 == k then some a.2 else pyGet o k := by
  by_cases h : (a.1 == k) = true
  · rw [if_pos h]
    unfold pyGet
    rw [@List.find?_cons_of_pos _ (fun e => e.1 == k) a o h]
    rfl
  · rw [if_neg h]
    unfold pyGet
    rw [@List.find?_cons_of_neg _ (fun e => e.1 == k) a o (by simpa using h)]

theorem pyGet_pySet_same (o : JObj) (k : String) (v : JVal) :
    pyGet (pySet o k v) k = some v := by
  induction o with
  | nil =>
      show pyGet [(k, v)] k = some v
      rw [pyGet_cons]
      simp
  | cons a rest ih =>
      rw [pySet]
      by_cases h : a.1 = k
      · rw [if_pos h, pyGet_cons]
        simp
      · rw [if_neg h, pyGet_cons, if_neg (by simpa using h)]
        exact ih

theorem pyGet_pySet_ne (o : JObj) (k k' : String) (v : JVal) (h : k' ≠ k) :
    pyGet (pySet o k v) k' = pyGet o k' := by
  induction o with
  | nil =>
      show pyGet [(k, v)] k' = pyGet [] k'
      rw [pyGet_cons, if_neg (by simp; exact fun hh => h hh.symm)]
  | cons a rest ih =>
      rw [pySet]
      by_cases ha : a.1 = k
      · rw [if_pos ha, pyGet_cons, pyGet_cons, ha]
        rw [if_neg (by simp; exact fun hh => h hh.symm)]
        rw [if_neg (by simp; exact fun hh => h hh.symm)]
      · rw [if_neg ha, pyGet_cons, pyGet_cons]
        by_cases hb : (a.1 == k') = true
        · rw [if_pos hb, if_pos hb]
        · rw [if_neg hb, if_neg hb]
          exact ih

theorem pyGet_append_single_none (o : JObj) (k : String) (v : JVal)
    (h : pyGet o k = none) : pyGet (o ++ [(k, v)]) k = some v := by
  induction o with
  | nil =>
      rw [List.nil_append, pyGet_cons]
      simp
  | cons a rest ih =>
      rw [List.cons_append, pyGet_cons]
      rw [pyGet_cons] at h
      by_cases hb : (a.1 == k) = true
      · rw [if_pos hb] at h
        cases h
      · rw [if_neg hb] at h
        rw [if_neg hb]
        exact ih h

theorem pyGet_append_single_ne (o : JObj) (k k' : String) (v : JVal)
    (h : k' ≠ k) : pyGet (o ++ [(k, v)]) k' = pyGet o k' := by
  induction o with
  | nil =>
      rw [List.nil_append, pyGet_cons, if_neg (by simp; exact fun hh => h hh.symm)]
  | cons a rest ih =>
      rw [List.cons_append, pyGet_cons, pyGet_cons]
      by_cases hb : (a.1 == k') = true
      · rw [if_pos hb, if_pos hb]
      · rw [if_neg hb, if_neg hb]
        exact ih

theorem pyGet_sdOr_same_isSome (o : JObj) (k : String) (v : JVal) :
    (pyGet (sdOr o k v) k).isSome = true := by
  unfold sdOr
  by_cases h : (pyGet o k).isSome = true
  · rw [if_pos h]
    exact h
  · rw [if_neg h, pyGet_append_single_none o k v
      (Option.not_isSome_iff_eq_none.mp h)]
    rfl

theorem pyGet_sdOr_ne (o : JObj) (k k' : String) (v : JVal) (h : k' ≠ k) :
    pyGet (sdOr o k v) k' = pyGet o k' := by
  unfold sdOr
  by_cases hh : (pyGet o k).isSome = true
  · rw [if_pos hh]
  · rw [if_neg hh]
    exact pyGet_append_single_ne o k k' v h

/-! ## Claims -/

/-- C9: for every input string, `sanitize` is idempotent
(`sanitize(sanitize(x)) == sanitize(x)`); it is a total function (never
fails), and the empty string is returned unchanged. -/
theorem c9_sanitize_idempotent :
    (∀ x : String, sanitize_text (sanitize_text x) = sanitize_text x) ∧
    sanitize_text "" = "" := by
  refine ⟨fun x => ?_, rfl⟩
  unfold sanitize_text
  by_cases h : x = ""
  · simp [h]
  · rw [if_neg h]
    by_cases h2 : String.mk (sanitizeChars x.data) = ""
    · rw [if_pos h2]
    · rw [if_neg h2]
      exact congrArg String.mk (sanitizeChars_idem x.data)

/-- C4: the post-processing of `extract_requirements` deduplicates by
case-insensitive requirement text (first occurrence wins, order
preserved), renumbers every id not matching `R-\d\x7b4\x7d` by its 1-based
position in the deduplicated list, and backfills missing
component/priority/acceptance with `"any"`/`"P2"`/`[]` — for every input
list of requirement records. -/
theorem c4_postprocess (l : List Req) :
    cleanRequirements l = cleanRequirementsSpec l := by
  unfold cleanRequirements cleanRequirementsSpec
  rw [dedupAux_eq_spec]
  simp only [List.contains_nil, Bool.not_false, List.filter_true]
  rw [renumberFillSpec, renumberFill_eq_enumFrom]

/-- C2 (amended): in heuristic mode — the mode that needs no model — every
requirement id is a string matching `^R-\d\x7b4\x7d$` and the ids are
pairwise distinct, provided the PRD yields at most 9999 requirement
records (beyond that, `\x7bn:04d\x7d` produces five digits); likewise every
rule id matches `^BR-\d\x7b4\x7d$` and the ids are distinct, for at most
9999 rules.  (In model-assisted mode the code keeps model-supplied ids
verbatim, see the counterexample.) -/
theorem c2_heuristic_id_invariant (prd : String) :
    ((heuristic_requirements prd).length ≤ 9999 →
      ∃ out, extract_requirements_heuristic prd = .ok out ∧
        (out.map Req.id).Nodup ∧
        ∀ r ∈ out, ∃ s, r.id = JVal.str s ∧ matchesRId s = true) ∧
    ((extract_rules_heuristic prd).length ≤ 9999 →
      ((extract_rules_heuristic prd).map Rule.id).Nodup ∧
        ∀ r ∈ extract_rules_heuristic prd, matchesBRId r.id = true) := by
  constructor
  · intro hlen
    have hidL := heuristicReqsGo_ids (pySplitlines prd) 1
    have hinj : Function.Injective (fun k => JVal.str (mk_id k)) := by
      intro a b hab
      simp only at hab
      exact mk_id_inj (by injection hab)
    have hvalid : ∀ r ∈ heuristic_requirements prd,
        ∃ s, r.id = JVal.str s ∧ matchesRId s = true := by
      intro r hr
      have hmem : r.id ∈ (heuristic_requirements prd).map Req.id :=
        List.mem_map_of_mem _ hr
      rw [show (heuristic_requirements prd).map Req.id =
          (List.range' 1 (heuristic_requirements prd).length).map
            (fun k => JVal.str (mk_id k)) from hidL] at hmem
      obtain ⟨k, hk, hkeq⟩ := List.mem_map.mp hmem
      have hk' := List.mem_range'_1.mp hk
      exact ⟨mk_id k, hkeq.symm, matchesRId_mk_id k (by omega)⟩
    have hsub := dedupByTextAux_sublist (heuristic_requirements prd) []
    obtain ⟨out, ho, hmap⟩ := renumberFill_valid
      (dedupByTextAux [] (heuristic_requirements prd)) 1
      (fun r hr => hvalid r (hsub.subset hr))
    refine ⟨out, ho, ?_, ?_⟩
    · rw [hmap]
      refine List.Nodup.sublist (hsub.map Req.id) ?_
      rw [show (heuristic_requirements prd).map Req.id =
          (List.range' 1 (heuristic_requirements prd).length).map
            (fun k => JVal.str (mk_id k)) from hidL]
      exact (List.nodup_range' _ _).map hinj
    · intro r hr
      have hmem : r.id ∈ out.map Req.id := List.mem_map_of_mem _ hr
      rw [hmap] at hmem
      obtain ⟨x, hx, hxeq⟩ := List.mem_map.mp hmem
      obtain ⟨sx, hsx, hmx⟩ := hvalid x (hsub.subset hx)
      exact ⟨sx, by rw [← hxeq, hsx], hmx⟩
  · intro hlen
    have hid := heuristicRulesGo_ids (pySplitlines prd) 1
    constructor
    · rw [show (extract_rules_heuristic prd).map Rule.id =
          (List.range' 1 (extract_rules_heuristic prd).length).map mk_brid from hid]
      exact (List.nodup_range' _ _).map mk_brid_inj
    · intro r hr
      have hmem : r.id ∈ (extract_rules_heuristic prd).map Rule.id :=
        List.mem_map_of_mem _ hr
      rw [show (extract_rules_heuristic prd).map Rule.id =
          (List.range' 1 (extract_rules_heuristic prd).length).map mk_brid from hid]
        at hmem
      obtain ⟨k, hk, hkeq⟩ := List.mem_map.mp hmem
      have hk' := List.mem_range'_1.mp hk
      rw [← hkeq]
      exact matchesBRId_mk_brid k (by omega)

/-- C2 (counterexample): in model-assisted mode, model-supplied ids that
already match the format are kept verbatim, so two requirements can share
the id `R-0001` — id uniqueness fails as stated. -/
theorem c2_counterexample :
    (extract_requirements_llm
        (.arr [.obj [("id", .str "R-0001"), ("text", .str "a")],
               .obj [("id", .str "R-0001"), ("text", .str "b")]]) "").map
      (fun out => out.map (fun r => match r.id with | .str s => s | _ => "")) =
      .ok ["R-0001", "R-0001"] ∧
    ¬ (["R-0001", "R-0001"] : List String).Nodup := by
  exact ⟨rfl, by decide⟩

/-- C2 (witness): the invariant instantiated on concrete PRDs. -/
theorem c2_witness :
    (∃ out, extract_requirements_heuristic "req: a" = .ok out ∧
      (out.map Req.id).Nodup ∧
      ∀ r ∈ out, ∃ s, r.id = JVal.str s ∧ matchesRId s = true) ∧
    (((extract_rules_heuristic "x must be unique").map Rule.id).Nodup ∧
      ∀ r ∈ extract_rules_heuristic "x must be unique",
        matchesBRId r.id = true) :=
  ⟨(c2_heuristic_id_invariant "req: a").1 (by decide),
   (c2_heuristic_id_invariant "x must be unique").2 (by decide)⟩

/-- C3 (amended): in heuristic mode, whenever the synthetic health text
occurs exactly once among the extracted texts (a PRD line can collide with
it, see the counterexample), the output of `extract_requirements` contains
a requirement with the health text, component `backend`, priority `P0`,
and the health assertion among its acceptance entries; for the empty PRD
the output is exactly the one synthetic health requirement. -/
theorem c3_health_requirement :
    (∀ prd : String,
      (heuristic_requirements prd).countP
          (fun r => pyLower r.text == pyLower healthText) = 1 →
      ∃ out, extract_requirements_heuristic prd = .ok out ∧
        ∃ r ∈ out, r.text = healthText ∧
          r.component = some (.str "backend") ∧
          r.priority = some (.str "P0") ∧
          hasHealthAcceptance r = true) ∧
    extract_requirements_heuristic "" = .ok [healthReq 1] := by
  constructor
  · intro prd hcount
    obtain ⟨k, hk⟩ := heuristicReqsGo_health (pySplitlines prd) 1
    have hmemD : healthReq k ∈ dedupByTextAux [] (heuristic_requirements prd) := by
      refine mem_dedup_of_unique_key _ [] (healthReq k) hk ?_ (by simp)
      exact hcount
    have hsub := dedupByTextAux_sublist (heuristic_requirements prd) []
    obtain ⟨out, ho, hmem⟩ := renumberFill_mem_ok
      (dedupByTextAux [] (heuristic_requirements prd)) 1
      (fun r hr => heuristicReqs_id_str prd r (hsub.subset hr))
    obtain ⟨r', hr'mem, htext, hcomp, hprio, hacc⟩ := hmem _ hmemD
    refine ⟨out, ho, r', hr'mem, htext, ?_, ?_, ?_⟩
    · rw [hcomp]; rfl
    · rw [hprio]; rfl
    · have : r'.acceptance = some (.arr [.str healthAcceptance]) := by
        rw [hacc]; rfl
      unfold hasHealthAcceptance
      rw [this]
      decide
  · rfl

/-- C3 (counterexample): a PRD whose single requirement line reads exactly
like the synthetic health text makes the deduplication swallow the
synthetic requirement (first occurrence wins), leaving one requirement with
an empty acceptance list — no requirement carries the health assertion. -/
theorem c3_counterexample :
    (extract_requirements_heuristic
        "req: API exposes GET /health returning 200 with \x7bstatus:'ok'\x7d").map
        (fun out => out.all (fun r => !hasHealthAcceptance r)) = .ok true ∧
    (extract_requirements_heuristic
        "req: API exposes GET /health returning 200 with \x7bstatus:'ok'\x7d").map
        (fun out => out.length) = .ok 1 := ⟨rfl, rfl⟩

/-- C3 (witness): the amended claim instantiated on a concrete PRD. -/
theorem c3_witness :
    ∃ out, extract_requirements_heuristic "req: users log in" = .ok out ∧
      ∃ r ∈ out, r.text = healthText ∧
        r.component = some (.str "backend") ∧
        r.priority = some (.str "P0") ∧
        hasHealthAcceptance r = true :=
  c3_health_requirement.1 "req: users log in" (by decide)

/-- C7: the heuristic rule extraction turns
`status can be one of: draft, active, closed` into the membership
constraint `status in ['draft', 'active', 'closed']` and
`price must be at least 10` into `price >= 10`; the third line matches
both the enumeration and comparison families and shows enumeration is
checked first (first match wins per line). -/
theorem c7_rule_patterns :
    heuristic_rules "status can be one of: draft, active, closed" =
      [{ id := "BR-0001", target := "Status.status", kind := "constraint",
         expr := "status in ['draft', 'active', 'closed']",
         message := "status must be one of ['draft', 'active', 'closed']" }] ∧
    heuristic_rules "price must be at least 10" =
      [{ id := "BR-0001", target := "Price.price", kind := "constraint",
         expr := "price >= 10", message := "price must be at least 10" }] ∧
    heuristic_rules
        "amount must be at least 10 and status can be one of: draft, closed" =
      [{ id := "BR-0001", target := "Status.status", kind := "constraint",
         expr := "status in ['draft', 'closed']",
         message := "status must be one of ['draft', 'closed']" }] :=
  ⟨rfl, rfl, rfl⟩

/-- C6 (amended): writing `blocks` for the fenced blocks found in the
stripped input — when there are none the result is the input stripped (not
unchanged, see the counterexample); otherwise the body of the first
`yaml`/`yml`-tagged block; else the body of the first `json`-tagged block;
else the body of a longest block. -/
theorem c6_block_selection (text : String) :
    (scanFences (stripChars text.data) = [] →
      extract_structured_block text = String.mk (stripChars text.data)) ∧
    (∀ (i : Nat) (b : List Char × List Char),
      (scanFences (stripChars text.data)).get? i = some b →
      isYamlTag b = true →
      (∀ j, j < i → ∀ b', (scanFences (stripChars text.data)).get? j = some b' →
        isYamlTag b' = false) →
      extract_structured_block text = String.mk b.2) ∧
    ((∀ b' ∈ scanFences (stripChars text.data), isYamlTag b' = false) →
      ∀ (i : Nat) (b : List Char × List Char),
      (scanFences (stripChars text.data)).get? i = some b →
      isJsonTag b = true →
      (∀ j, j < i → ∀ b', (scanFences (stripChars text.data)).get? j = some b' →
        isJsonTag b' = false) →
      extract_structured_block text = String.mk b.2) ∧
    ((∀ b' ∈ scanFences (stripChars text.data), isYamlTag b' = false) →
      (∀ b' ∈ scanFences (stripChars text.data), isJsonTag b' = false) →
      scanFences (stripChars text.data) ≠ [] →
      ∃ b ∈ scanFences (stripChars text.data),
        extract_structured_block text = String.mk b.2 ∧
        ∀ b' ∈ scanFences (stripChars text.data),
          b'.2.length ≤ b.2.length) := by
  have hef : extract_structured_block text =
      (match (scanFences (stripChars text.data)).find? isYamlTag with
       | some b => String.mk b.2
       | none =>
         match (scanFences (stripChars text.data)).find? isJsonTag with
         | some b => String.mk b.2
         | none =>
           match scanFences (stripChars text.data) with
           | [] => String.mk (stripChars text.data)
           | b0 :: rest => String.mk (maxByBodyLen b0 rest).2) := rfl
  refine ⟨?_, ?_, ?_, ?_⟩
  · intro h
    rw [hef, h]
    rfl
  · intro i b hget hyaml hfirst
    rw [hef, find?_of_first _ _ i b hget hyaml hfirst]
  · intro hfalse i b hget hjson hfirst
    rw [hef, List.find?_eq_none.mpr (fun x hx => by simp [hfalse x hx]),
      find?_of_first _ _ i b hget hjson hfirst]
  · intro hyaml hjson hne
    rw [hef, List.find?_eq_none.mpr (fun x hx => by simp [hyaml x hx]),
      List.find?_eq_none.mpr (fun x hx => by simp [hjson x hx])]
    rcases hbs : scanFences (stripChars text.data) with _ | ⟨b0, rest⟩
    · exact absurd hbs hne
    · obtain ⟨hmem, hle⟩ := maxByBodyLen_spec rest b0
      refine ⟨maxByBodyLen b0 rest, hmem, rfl, ?_⟩
      intro b' hb'
      exact hle b' hb'

/-- C6 (counterexample): with no fenced blocks the input is returned
stripped, not unchanged. -/
theorem c6_counterexample :
    scanFences (stripChars (" hi ").data) = [] ∧
    extract_structured_block " hi " = "hi" ∧ " hi " ≠ "hi" :=
  ⟨rfl, rfl, by decide⟩

/-- C6 (witness): the selection instantiated on a block-free input and on
a yaml-tagged block. -/
theorem c6_witness :
    extract_structured_block "plain text" = "plain text" ∧
    extract_structured_block "```yaml\nbody\n```" = "body\n" := by
  constructor
  · exact (c6_block_selection "plain text").1 rfl
  · refine ((c6_block_selection "```yaml\nbody\n```").2.1 0
      ("yaml".data, "body\n".data) rfl rfl ?_)
    intro j hj b' hb'
    omega

/-- C1 (amended): `coerce` never fails and its output passes the
(spec-modelled) schema validation, for every input whose `meta`, `stacks`
and stack sub-entries are absent, falsy, or mappings — including `\x7b\x7d`,
`None`, and partially-shaped objects with extraneous keys.  (On other
inputs the `dict(...)` calls raise, see the counterexample.) -/
theorem c1_coerce_validates (x : JVal) (prd : String) (h : dictShaped x = true) :
    coerceAndValidate x prd = true := by
  unfold dictShaped at h
  rw [Bool.and_eq_true] at h
  obtain ⟨h1, h2⟩ := h
  have hx : ∃ d, dictOr x = .ok d ∧
      dictish ((pyGet d "meta").getD .null) = true ∧
      stacksShaped ((pyGet d "stacks").getD .null) = true := by
    have h1' := h1
    unfold dictish at h1'
    rw [Bool.or_eq_true] at h1'
    rcases h1' with hf | ho
    · exact ⟨[], by rw [dictOr, if_pos hf], by decide, by decide⟩
    · cases x with
      | obj m =>
          rw [Bool.and_eq_true] at h2
          exact ⟨m, dictOr_obj m, h2.1, h2.2⟩
      | null => cases ho
      | bool b => cases ho
      | num n => cases ho
      | str t => cases ho
      | arr l => cases ho
  obtain ⟨d, hd, hm, hs⟩ := hx
  obtain ⟨M, hM⟩ := dictOr_ok_of_dictish _ hm
  obtain ⟨st, hst, hbe, hfe, hdbv, hin⟩ := stacksShaped_elim _ hs
  obtain ⟨BE, hBE⟩ := dictOr_ok_of_dictish _ hbe
  obtain ⟨FE, hFE⟩ := dictOr_ok_of_dictish _ hfe
  obtain ⟨DB, hDB⟩ := dictOr_ok_of_dictish _ hdbv
  obtain ⟨IN, hIN⟩ := dictOr_ok_of_dictish _ hin
  unfold coerceAndValidate coerce
  simp only [hd, except_bind_ok, hM]
  rw [pyGet_pySet_ne d "meta" "stacks" _ (by decide)]
  simp only [hst, except_bind_ok, hBE, hFE, hDB, hIN, pure, Except.pure]
  simp [validateSpecSchema, pyGet_sdOr_ne, pyGet_sdOr_same_isSome,
    pyGet_pySet_ne, pyGet_pySet_same]

/-- C1 (counterexample): a `meta` entry that is a truthy non-mapping makes
`dict(data.get("meta") or \x7b\x7d)` raise a `TypeError`, so `coerce` is not
total as claimed. -/
theorem c1_counterexample :
    coerceAndValidate (.obj [("meta", .num 5)]) "" = false := rfl

/-- C1 (witness): schema closure on a partially-shaped object with an
extraneous key and a falsy `entities`. -/
theorem c1_witness :
    coerceAndValidate (.obj [("extra", .str "x"), ("entities", .null)])
      "any prd" = true :=
  c1_coerce_validates _ _ (by decide)

/-! ### Substring structure of the serialized workflow list (for C5)

`_ensure_health` tests `"health" in json.dumps(flows).lower()`.  The
pattern `health` contains none of the characters `[`, `]`, `,`, a space —
exactly the glue `json.dumps` puts around and between the element dicts —
so a hit in the dumped list is a hit in one element's dump and conversely. -/

theorem containsSeq_nil_pat (l : List Char) : containsSeq [] l = true := by
  induction l with
  | nil => rfl
  | cons a l ih => simp [containsSeq, prefixSeq]

theorem containsSeq_cons_tail (pat : List Char) (c : Char) (l : List Char)
    (h : containsSeq pat l = true) : containsSeq pat (c :: l) = true := by
  have e : containsSeq pat (c :: l)
      = (prefixSeq pat (c :: l) || containsSeq pat l) := rfl
  rw [e, h, Bool.or_true]

theorem containsSeq_of_prefixSeq (pat l : List Char) (h : prefixSeq pat l = true) :
    containsSeq pat l = true := by
  cases l with
  | nil => exact h
  | cons a l' =>
      have e : containsSeq pat (a :: l')
          = (prefixSeq pat (a :: l') || containsSeq pat l') := rfl
      rw [e, h, Bool.true_or]

theorem prefixSeq_append_right (pat : List Char) :
    ∀ (l z : List Char), prefixSeq pat l = true → prefixSeq pat (l ++ z) = true := by
  induction pat with
  | nil => intro l z _; rfl
  | cons p ps ih =>
      intro l z h
      cases l with
      | nil => exact absurd h (by simp [prefixSeq])
      | cons a l' =>
          simp only [List.cons_append, prefixSeq, Bool.and_eq_true] at h ⊢
          exact ⟨h.1, ih l' z h.2⟩

theorem prefixSeq_length_le (pat : List Char) :
    ∀ l : List Char, prefixSeq pat l = true → pat.length ≤ l.length := by
  induction pat with
  | nil => intro l _; simp
  | cons p ps ih =>
      intro l h
      cases l with
      | nil => exact absurd h (by simp [prefixSeq])
      | cons a l' =>
          simp only [prefixSeq, Bool.and_eq_true] at h
          simp only [List.length_cons]
          exact Nat.succ_le_succ (ih l' h.2)

theorem prefixSeq_take (pat : List Char) :
    ∀ (l z : List Char), prefixSeq pat (l ++ z) = true →
      pat.length ≤ l.length → prefixSeq pat l = true := by
  induction pat with
  | nil => intro l z _ _; rfl
  | cons p ps ih =>
      intro l z h hle
      cases l with
      | nil => simp at hle
      | cons a l' =>
          simp only [List.cons_append, prefixSeq, Bool.and_eq_true] at h ⊢
          refine ⟨h.1, ih l' z h.2 ?_⟩
          simp only [List.length_cons] at hle
          omega

theorem containsSeq_append_of_right (pat : List Char) :
    ∀ (x z : List Char), containsSeq pat z = true →
      containsSeq pat (x ++ z) = true := by
  intro x
  induction x with
  | nil => intro z h; simpa using h
  | cons a x' ih =>
      intro z h
      rw [List.cons_append]
      exact containsSeq_cons_tail pat a (x' ++ z) (ih z h)

theorem containsSeq_append_of_left (pat : List Char) :
    ∀ (x z : List Char), containsSeq pat x = true →
      containsSeq pat (x ++ z) = true := by
  intro x
  induction x with
  | nil =>
      intro z h
      cases pat with
      | nil => simpa using containsSeq_nil_pat z
      | cons p ps => exact Bool.noConfusion h
  | cons a x' ih =>
      intro z h
      have e : containsSeq pat (a :: x')
          = (prefixSeq pat (a :: x') || containsSeq pat x') := rfl
      rw [e, Bool.or_eq_true] at h
      rw [List.cons_append]
      rcases h with h1 | h2
      · refine containsSeq_of_prefixSeq _ _ ?_
        have := prefixSeq_append_right pat (a :: x') z h1
        simpa using this
      · exact containsSeq_cons_tail pat a (x' ++ z) (ih z h2)

theorem containsSeq_skip_head (p : Char) (ps : List Char) (c : Char)
    (l : List Char) (h : ¬ p = c) :
    containsSeq (p :: ps) (c :: l) = containsSeq (p :: ps) l := by
  have e : containsSeq (p :: ps) (c :: l)
      = (prefixSeq (p :: ps) (c :: l) || containsSeq (p :: ps) l) := rfl
  rw [e]
  have e2 : prefixSeq (p :: ps) (c :: l) = false := by simp [prefixSeq, h]
  rw [e2, Bool.false_or]

theorem containsSeq_skip_run (p : Char) (ps : List Char) :
    ∀ (s z : List Char), (∀ c ∈ s, ¬ p = c) →
      containsSeq (p :: ps) (s ++ z) = containsSeq (p :: ps) z := by
  intro s
  induction s with
  | nil => intro z _; rfl
  | cons c s' ih =>
      intro z hs
      rw [List.cons_append, containsSeq_skip_head p ps c _ (hs c (by simp))]
      exact ih z (fun c hc => hs c (by simp [hc]))

theorem containsSeq_tail_pat (c : Char) (p : List Char) :
    ∀ l : List Char, containsSeq (c :: p) l = true → containsSeq p l = true := by
  intro l
  induction l with
  | nil => intro h; exact Bool.noConfusion h
  | cons a l' ih =>
      intro h
      have e : containsSeq (c :: p) (a :: l')
          = (prefixSeq (c :: p) (a :: l') || containsSeq (c :: p) l') := rfl
      rw [e, Bool.or_eq_true] at h
      rcases h with h1 | h2
      · simp only [prefixSeq, Bool.and_eq_true] at h1
        exact containsSeq_cons_tail p a l' (containsSeq_of_prefixSeq p l' h1.2)
      · exact containsSeq_cons_tail p a l' (ih h2)

/-- A prefix of the whole that may not touch the separator lies in `x`. -/
theorem prefixSeq_stop_before_sep (sep z : List Char) (hsep : sep ≠ []) :
    ∀ (pat x : List Char), (∀ a ∈ pat, ∀ c ∈ sep, ¬ a = c) →
      prefixSeq pat (x ++ sep ++ z) = true → pat.length ≤ x.length := by
  intro pat
  induction pat with
  | nil => intro x _ _; simp
  | cons p ps ih =>
      intro x Hp h
      cases x with
      | nil =>
          cases sep with
          | nil => exact absurd rfl hsep
          | cons s0 s' =>
              simp only [List.nil_append, List.cons_append, prefixSeq,
                Bool.and_eq_true, decide_eq_true_eq] at h
              exact absurd h.1 (Hp p (by simp) s0 (by simp))
      | cons a x' =>
          simp only [List.cons_append, prefixSeq, Bool.and_eq_true] at h
          have := ih x' (fun b hb c hc => Hp b (by simp [hb]) c hc) h.2
          simp only [List.length_cons]
          exact Nat.succ_le_succ this

/-- An occurrence in `x ++ sep ++ z` that cannot overlap `sep` is an
occurrence in `x` or one in `z`. -/
theorem containsSeq_split_sep (pat sep : List Char) (hp : pat ≠ [])
    (hsep : sep ≠ []) (Hp : ∀ a ∈ pat, ∀ c ∈ sep, ¬ a = c) :
    ∀ (x z : List Char), containsSeq pat (x ++ sep ++ z) = true →
      containsSeq pat x = true ∨ containsSeq pat z = true := by
  intro x
  induction x with
  | nil =>
      intro z h
      cases pat with
      | nil => exact absurd rfl hp
      | cons p ps =>
          right
          rw [List.nil_append] at h
          rwa [containsSeq_skip_run p ps sep z
            (fun c hc => Hp p (by simp) c hc)] at h
  | cons a x' ih =>
      intro z h
      have h0 : containsSeq pat (a :: (x' ++ (sep ++ z))) = true := by
        simpa [List.append_assoc] using h
      have e : containsSeq pat (a :: (x' ++ (sep ++ z)))
          = (prefixSeq pat (a :: (x' ++ (sep ++ z)))
             || containsSeq pat (x' ++ (sep ++ z))) := rfl
      rw [e, Bool.or_eq_true] at h0
      rcases h0 with h1 | h2
      · left
        have h1' : prefixSeq pat ((a :: x') ++ sep ++ z) = true := by
          simpa [List.append_assoc] using h1
        have hlen : pat.length ≤ (a :: x').length :=
          prefixSeq_stop_before_sep sep z hsep pat (a :: x') Hp h1'
        have hpre : prefixSeq pat (a :: x') = true :=
          prefixSeq_take pat (a :: x') (sep ++ z) (by simpa [List.append_assoc] using h1) hlen
        exact containsSeq_of_prefixSeq _ _ hpre
      · have h2' : containsSeq pat (x' ++ sep ++ z) = true := by
          simpa [List.append_assoc] using h2
        rcases ih z h2' with hx | hz
        · exact Or.inl (containsSeq_cons_tail pat a x' hx)
        · exact Or.inr hz

theorem intercalate_cons_cons (sep x y : List Char) (ys : List (List Char)) :
    List.intercalate sep (x :: y :: ys)
      = x ++ sep ++ List.intercalate sep (y :: ys) := by
  simp [List.intercalate, List.intersperse]

/-- A separator-free pattern occurs in a joined list iff it occurs in one
of the pieces. -/
theorem containsSeq_intercalate (pat sep : List Char) (hp : pat ≠ [])
    (hsep : sep ≠ []) (Hp : ∀ a ∈ pat, ∀ c ∈ sep, ¬ a = c) :
    ∀ ls : List (List Char),
      (containsSeq pat (List.intercalate sep ls) = true
        ↔ ∃ l ∈ ls, containsSeq pat l = true) := by
  intro ls
  induction ls with
  | nil =>
      constructor
      · intro h
        cases pat with
        | nil => exact absurd rfl hp
        | cons p ps =>
            rw [show List.intercalate sep ([] : List (List Char)) = []
              from by simp [List.intercalate]] at h
            exact Bool.noConfusion h
      · rintro ⟨l, hl, _⟩
        simp at hl
  | cons x xs ih =>
      cases xs with
      | nil =>
          rw [show List.intercalate sep [x] = x from by simp [List.intercalate]]
          simp
      | cons y ys =>
          rw [intercalate_cons_cons]
          constructor
          · intro h
            rcases containsSeq_split_sep pat sep hp hsep Hp x _ (by simpa using h)
              with hx | hz
            · exact ⟨x, by simp, hx⟩
            · obtain ⟨l, hl, hc⟩ := ih.mp hz
              exact ⟨l, List.mem_cons_of_mem x hl, hc⟩
          · rintro ⟨l, hl, hc⟩
            rcases List.mem_cons.mp hl with rfl | hl'
            · simpa using containsSeq_append_of_left pat l
                (sep ++ List.intercalate sep (y :: ys)) hc
            · have hJ := ih.mpr ⟨l, hl', hc⟩
              have := containsSeq_append_of_right pat sep _ hJ
              simpa using containsSeq_append_of_right pat x (sep ++ _) this

theorem map_intercalate_fix (f : Char → Char) (sep : List Char)
    (hf : sep.map f = sep) :
    ∀ ls : List (List Char),
      (List.intercalate sep ls).map f
        = List.intercalate sep (ls.map (fun l => l.map f)) := by
  intro ls
  induction ls with
  | nil => simp [List.intercalate]
  | cons x xs ih =>
      cases xs with
      | nil => simp [List.intercalate]
      | cons y ys =>
          simp only [List.map_cons]
          rw [intercalate_cons_cons, intercalate_cons_cons, List.map_append,
            List.map_append, hf, ih]
          simp only [List.map_cons]

/-- Lower-casing the dumped list keeps the bracket/separator skeleton. -/
theorem lowerL_dumpFlows (flows : List Workflow) :
    lowerL (dumpFlows flows)
      = '[' :: (List.intercalate ", ".data
          (flows.map (fun w => lowerL (dumpW w))) ++ [']']) := by
  unfold dumpFlows lowerL
  rw [List.map_append, List.map_cons,
    map_intercalate_fix lowerCh ", ".data (by decide), List.map_map]
  simp only [List.cons_append]
  have h1 : lowerCh '[' = '[' := by decide
  have h2 : List.map lowerCh [']'] = [']'] := by decide
  rw [h1, h2]
  rfl

/-- The serialized-list health test, element by element. -/
theorem mentions_dumpFlows (flows : List Workflow) :
    (containsSeq "health".data (lowerL (dumpFlows flows)) = true
      ↔ ∃ w ∈ flows, mentionsHealth w = true) := by
  rw [lowerL_dumpFlows]
  constructor
  · intro h
    rw [show "health".data = 'h' :: "ealth".data from rfl,
      containsSeq_skip_head 'h' "ealth".data '[' _ (by decide)] at h
    rcases containsSeq_split_sep ('h' :: "ealth".data) [']'] (by simp) (by simp)
        (by decide) _ [] (by simpa using h) with hJ | hnil
    · obtain ⟨l, hl, hc⟩ := (containsSeq_intercalate ('h' :: "ealth".data)
        ", ".data (by simp) (by simp) (by decide) _).mp hJ
      obtain ⟨w, hw, rfl⟩ := List.mem_map.mp hl
      exact ⟨w, hw, hc⟩
    · exact Bool.noConfusion hnil
  · rintro ⟨w, hw, hm⟩
    apply containsSeq_cons_tail
    apply containsSeq_append_of_left
    exact (containsSeq_intercalate "health".data ", ".data (by decide) (by simp)
      (by decide) _).mpr ⟨lowerL (dumpW w), List.mem_map_of_mem _ hw, hm⟩

/-- `_ensure_health`, restated through the per-workflow test. -/
theorem ensure_health_spec (flows : List Workflow) :
    ensure_health flows
      = if flows.any mentionsHealth then flows else flows ++ [healthFlow] := by
  unfold ensure_health
  by_cases h : containsSeq "health".data (lowerL (dumpFlows flows)) = true
  · have h2 : flows.any mentionsHealth = true :=
      List.any_eq_true.mpr ((mentions_dumpFlows flows).mp h)
    simp [h, h2]
  · have hb : containsSeq "health".data (lowerL (dumpFlows flows)) = false := by
      simpa using h
    have hs : containsSeq "/health".data (lowerL (dumpFlows flows)) = false := by
      cases hq : containsSeq "/health".data (lowerL (dumpFlows flows)) with
      | false => rfl
      | true =>
          have ht := containsSeq_tail_pat '/' "health".data _ hq
          rw [hb] at ht
          exact Bool.noConfusion ht
    have h4 : flows.any mentionsHealth = false := by
      rw [List.any_eq_false]
      intro w hw hm
      exact h ((mentions_dumpFlows flows).mpr ⟨w, hw, hm⟩)
    simp [hb, hs, h4]

/-- The heuristic requirements pipeline never raises: every id it builds
is a string, so the renumber loop succeeds. -/
theorem extract_requirements_heuristic_ok (prd : String) :
    ∃ reqs, extract_requirements_heuristic prd = .ok reqs := by
  obtain ⟨out, hout, _⟩ := renumberFill_mem_ok
    (dedupByTextAux [] (heuristic_requirements prd)) 1
    (fun r hr => heuristicReqs_id_str prd r
      ((dedupByTextAux_sublist (heuristic_requirements prd) []).subset hr))
  exact ⟨out, hout⟩

/-- `enrich_spec` succeeds and stores exactly the health-ensured workflow
list under `"workflows"`. -/
theorem enrich_spec_workflows (spec : JObj) (prd : String) :
    ∃ o, enrich_spec spec prd = Except.ok o ∧
      pyGet o "workflows" = some (JVal.arr ((enrichFlows prd).map workflowToJVal)) := by
  obtain ⟨reqs, hr⟩ := extract_requirements_heuristic_ok prd
  unfold enrich_spec
  simp only [hr, except_bind_ok, pure, Except.pure]
  refine ⟨_, rfl, ?_⟩
  rw [pyGet_pySet_ne _ "business_rules" "workflows" _ (by decide),
    pyGet_pySet_ne _ "requirements" "workflows" _ (by decide),
    pyGet_pySet_same]

/-- C5: for every spec object and PRD text, `enrich_spec` succeeds and the
workflow list it stores contains a workflow whose serialized text mentions
`health` case-insensitively; and when no extracted workflow mentions it,
the list is exactly the extracted workflows with the
`\x7b"name": "Health", "trigger": "http", "actions": ["GET /health returns
200 \x7bstatus:ok\x7d"]\x7d` workflow appended. -/
theorem c5_health_workflow (spec : JObj) (prd : String) :
    (∃ w ∈ enrichFlows prd, mentionsHealth w = true) ∧
    ((∀ w ∈ heuristic_workflows prd, mentionsHealth w = false) →
      enrichFlows prd = heuristic_workflows prd ++ [healthFlow]) ∧
    (∃ o, enrich_spec spec prd = Except.ok o ∧
      pyGet o "workflows"
        = some (JVal.arr ((enrichFlows prd).map workflowToJVal))) := by
  refine ⟨?_, ?_, enrich_spec_workflows spec prd⟩
  · unfold enrichFlows
    rw [ensure_health_spec]
    by_cases h : (heuristic_workflows prd).any mentionsHealth
    · rw [if_pos h]
      exact List.any_eq_true.mp h
    · rw [if_neg h]
      exact ⟨healthFlow, by simp, by decide⟩
  · intro hall
    unfold enrichFlows
    rw [ensure_health_spec]
    have h : (heuristic_workflows prd).any mentionsHealth = false := by
      rw [List.any_eq_false]
      intro w hw hm
      rw [hall w hw] at hm
      exact Bool.noConfusion hm
    simp [h]

theorem pySetdefault_eq_sdOr (o : JObj) (k : String) (v : JVal) :
    pySetdefault o k v = sdOr o k v := rfl

/-- C8 (amended): when `meta.name` is absent, non-string, or blank, the
coerced object's `meta.name` is `_name_from_prd` of the PRD: the first
`name:`/`project:`/`product:` label match (default `"my-app"`), stripped,
lower-cased, with each whitespace run replaced by one hyphen — other
non-alphanumeric characters (`_`, `.`, …) are kept, not collapsed to
hyphens as claimed. -/
theorem c8_name_derivation (d : JObj) (prd : String) (meta0 : JObj)
    (hm : dictOr ((pyGet d "meta").getD JVal.null) = Except.ok meta0)
    (hmiss : metaNameMissing meta0 = true)
    (hstacks : stacksShaped ((pyGet d "stacks").getD JVal.null) = true) :
    ∃ o, coerce (JVal.obj d) prd = Except.ok o ∧
      ∃ m, pyGet o "meta" = some (JVal.obj m) ∧
        pyGet m "name" = some (JVal.str (name_from_prd prd)) ∧
        name_from_prd prd = String.mk (subWsHyphen (lowerL (stripChars
          (match scanName prd.data with
            | some g => g
            | none => "my-app".data)))) := by
  obtain ⟨st, hst, hbe, hfe, hdbv, hin⟩ := stacksShaped_elim _ hstacks
  obtain ⟨BE, hBE⟩ := dictOr_ok_of_dictish _ hbe
  obtain ⟨FE, hFE⟩ := dictOr_ok_of_dictish _ hfe
  obtain ⟨DB, hDB⟩ := dictOr_ok_of_dictish _ hdbv
  obtain ⟨IN, hIN⟩ := dictOr_ok_of_dictish _ hin
  unfold coerce
  simp only [dictOr_obj, except_bind_ok, hm]
  rw [if_pos hmiss]
  rw [pyGet_pySet_ne d "meta" "stacks" _ (by decide)]
  simp only [hst, except_bind_ok, hBE, hFE, hDB, hIN, pure, Except.pure]
  refine ⟨_, rfl, ?_⟩
  refine ⟨pySetdefault (pySetdefault (pySet meta0 "name"
      (JVal.str (name_from_prd prd))) "domain" (JVal.str "App"))
      "version" (JVal.str "0.1.0"), ?_, ?_, rfl⟩
  · rw [pyGet_sdOr_ne _ "constraints" "meta" _ (by decide),
      pyGet_sdOr_ne _ "ci_cd" "meta" _ (by decide),
      pyGet_sdOr_ne _ "non_functional" "meta" _ (by decide),
      pyGet_sdOr_ne _ "integrations" "meta" _ (by decide),
      pyGet_sdOr_ne _ "requirements" "meta" _ (by decide),
      pyGet_sdOr_ne _ "workflows" "meta" _ (by decide),
      pyGet_sdOr_ne _ "entities" "meta" _ (by decide),
      pyGet_pySet_ne _ "stacks" "meta" _ (by decide),
      pyGet_pySet_same]
  · rw [pySetdefault_eq_sdOr, pySetdefault_eq_sdOr,
      pyGet_sdOr_ne _ "version" "name" _ (by decide),
      pyGet_sdOr_ne _ "domain" "name" _ (by decide),
      pyGet_pySet_same]

/-- C8 (counterexample): the code keeps the underscore of `a_b`, while the
claimed non-alphanumeric collapse would turn it into a hyphen; the coerced
`meta` carries the code's value. -/
theorem c8_counterexample :
    name_from_prd "name: a_b" = "a_b" ∧
    claimDeriveName "name: a_b" = "a-b" ∧
    (coerce (JVal.obj []) "name: a_b").map (fun o => pyGet o "meta")
      = Except.ok (some (JVal.obj
          [("name", JVal.str "a_b"), ("domain", JVal.str "App"),
           ("version", JVal.str "0.1.0")])) :=
  ⟨rfl, rfl, rfl⟩

/-- C8 (witness): the amended derivation at a concrete labelled PRD with an
empty spec object. -/
theorem c8_witness :
    ∃ o, coerce (JVal.obj []) "project: My  Cool App" = Except.ok o ∧
      ∃ m, pyGet o "meta" = some (JVal.obj m) ∧
        pyGet m "name"
          = some (JVal.str (name_from_prd "project: My  Cool App")) ∧
        name_from_prd "project: My  Cool App"
          = String.mk (subWsHyphen (lowerL (stripChars
              (match scanName "project: My  Cool App".data with
                | some g => g
                | none => "my-app".data)))) :=
  c8_name_derivation [] "project: My  Cool App" [] rfl (by decide) (by decide)

/-- C10: `enrich_spec` succeeds and the returned object agrees with the
input spec on every top-level key other than `entities`, `workflows`,
`requirements` and `business_rules`; the input object itself is untouched
(the result is a fresh `dict(spec)` with only those four keys assigned). -/
theorem c10_frame (spec : JObj) (prd : String) (k : String)
    (h : k ≠ "entities" ∧ k ≠ "workflows" ∧ k ≠ "requirements" ∧
      k ≠ "business_rules") :
    ∃ o, enrich_spec spec prd = Except.ok o ∧ pyGet o k = pyGet spec k := by
  obtain ⟨h1, h2, h3, h4⟩ := h
  obtain ⟨reqs, hr⟩ := extract_requirements_heuristic_ok prd
  unfold enrich_spec
  simp only [hr, except_bind_ok, pure, Except.pure]
  refine ⟨_, rfl, ?_⟩
  rw [pyGet_pySet_ne _ "business_rules" k _ h4,
    pyGet_pySet_ne _ "requirements" k _ h3,
    pyGet_pySet_ne _ "workflows" k _ h2,
    pyGet_pySet_ne _ "entities" k _ h1]

/-- C10 (witness): the `meta` entry survives enrichment unchanged. -/
theorem c10_witness :
    ∃ o, enrich_spec [("meta", JVal.str "x")] "" = Except.ok o ∧
      pyGet o "meta" = pyGet [("meta", JVal.str "x")] "meta" :=
  c10_frame [("meta", JVal.str "x")] "" "meta" (by decide)

end ProjectGen
